import Mathlib

/-
Verification development for a concurrent in-memory directory tree
implemented in C (Tree.c of the repository under study).

The development has three layers.

First, a shallow embedding of the per-node synchronization state (the
counters rcount, wcount, rwait, wwait, the signed baton change and the
flag cwait of struct Tree) together with the reader and writer entry and
exit protocols.  Each region of code executed while holding the node
mutex becomes one transition of a guarded step relation; blocking on a
condition variable ends a region and waking starts the next one.

Second, a functional model of the sequential behaviour of the four tree
operations: the tree is an inductive of nodes carrying an association
list from folder names to children (the HashMap of the source), and
tree_list, tree_create, tree_remove and tree_move are translated from
the source line by line, with the lock operations erased.  The path
utilities (path_utils.h) and the hash map are external to the sources at
hand and are modelled from the contracts the specification states for
them.

Third, an instrumented model of the descent routines (find_node, the
shared descent of tree_move, move_dfs, target_dfs, source_dfs) that
records every lock entry and exit event, used to settle the claims about
which exit protocol releases a node when a path component is missing.
-/

set_option autoImplicit false

namespace FsSpec

/-! ## Error codes (errno.h values as used on Linux) -/

def ENOENT : Int := 2
def EBUSY : Int := 16
def EEXIST : Int := 17
def EINVAL : Int := 22
def ENOTEMPTY : Int := 39

/-! ## Per-node synchronization state

Fields of struct Tree (Tree.c lines 30-41) that the protocols read and
write.  All four counters are C ints; they are modelled as Int.
-/

structure SyncState where
  rcount : Int
  wcount : Int
  rwait : Int
  wwait : Int
  change : Int
  cwait : Bool
deriving DecidableEq, Repr

/-- Initial state of a fresh node (tree_new, lines 51-54). -/
def initSync : SyncState := ⟨0, 0, 0, 0, 0, false⟩

/-- Which condition variable a protocol signals on exit. -/
inductive Signal where
  | readers
  | writers
  | clear
  | silent
deriving DecidableEq, Repr

/-- Loop guard of reader_entry_protocol (line 86):
`(wcount > 0 || wwait > 0) && change <= 0`. -/
def reader_blocked (s : SyncState) : Prop :=
  (0 < s.wcount ∨ 0 < s.wwait) ∧ s.change ≤ 0

instance (s : SyncState) : Decidable (reader_blocked s) := by
  unfold reader_blocked; infer_instance

/-- Admission part of reader_entry_protocol (lines 92-97): rcount++ and,
when the baton is positive, consume one admission (the chained signal to
the readers condition does not change the state). -/
def reader_unblock (s : SyncState) : SyncState :=
  { s with rcount := s.rcount + 1,
           change := if 0 < s.change then s.change - 1 else s.change }

/-- reader_exit_protocol (lines 102-113). -/
def reader_exit_protocol (s : SyncState) : SyncState × Signal :=
  let s1 := { s with rcount := s.rcount - 1 }
  if s1.rcount = 0 ∧ 0 < s1.wwait then
    ({ s1 with change := -1 }, Signal.writers)
  else if s1.cwait then (s1, Signal.clear)
  else (s1, Signal.silent)

/-- Loop guard of writer_entry_protocol (line 118):
`rcount > 0 || wcount > 0 || change > 0`. -/
def writer_blocked (s : SyncState) : Prop :=
  0 < s.rcount ∨ 0 < s.wcount ∨ 0 < s.change

instance (s : SyncState) : Decidable (writer_blocked s) := by
  unfold writer_blocked; infer_instance

/-- Admission part of writer_entry_protocol (lines 123-124). -/
def writer_unblock (s : SyncState) : SyncState :=
  { s with wcount := s.wcount + 1, change := 0 }

/-- writer_exit_protocol (lines 129-144). -/
def writer_exit_protocol (s : SyncState) : SyncState × Signal :=
  let s1 := { s with wcount := s.wcount - 1 }
  if 0 < s1.rwait then ({ s1 with change := s1.rwait }, Signal.readers)
  else if 0 < s1.wwait then ({ s1 with change := -1 }, Signal.writers)
  else if s1.cwait then (s1, Signal.clear)
  else (s1, Signal.silent)

/-- Subtree-quiescence condition awaited by tree_remove (lines 268-269)
and bfs_clear (lines 296-297). -/
def quiescent (s : SyncState) : Prop :=
  s.rcount = 0 ∧ s.wcount = 0 ∧ s.rwait = 0 ∧ s.wwait = 0

instance (s : SyncState) : Decidable (quiescent s) := by
  unfold quiescent; infer_instance

/-- One step of the node monitor: each constructor is one mutex-held
region of the entry and exit protocols.  Exit steps carry the guard that
the caller holds the node in the corresponding mode (exit protocols are
invoked only by a thread whose entry protocol completed), which is the
documented usage of the source. -/
inductive SyncStep : SyncState → SyncState → Prop where
  /-- reader_entry_protocol, loop not entered (lines 85-98). -/
  | readerEnterFast (s : SyncState) :
      ¬ reader_blocked s → SyncStep s (reader_unblock s)
  /-- reader_entry_protocol, loop entered: rwait++ then wait (lines 87-88). -/
  | readerEnterWait (s : SyncState) :
      reader_blocked s → SyncStep s { s with rwait := s.rwait + 1 }
  /-- woken reader: rwait-- (line 89), guard re-checked and false, admitted. -/
  | readerWakeProceed (s : SyncState) :
      0 < s.rwait → ¬ reader_blocked { s with rwait := s.rwait - 1 } →
      SyncStep s (reader_unblock { s with rwait := s.rwait - 1 })
  /-- woken reader: guard still true, rwait++ again and wait; net identity. -/
  | readerWakeReblock (s : SyncState) :
      0 < s.rwait → reader_blocked { s with rwait := s.rwait - 1 } →
      SyncStep s s
  /-- reader_exit_protocol (lines 102-113). -/
  | readerExit (s : SyncState) :
      0 < s.rcount → SyncStep s (reader_exit_protocol s).1
  /-- writer_entry_protocol, loop not entered (lines 117-125). -/
  | writerEnterFast (s : SyncState) :
      ¬ writer_blocked s → SyncStep s (writer_unblock s)
  /-- writer_entry_protocol, loop entered: wwait++ then wait (lines 119-120). -/
  | writerEnterWait (s : SyncState) :
      writer_blocked s → SyncStep s { s with wwait := s.wwait + 1 }
  /-- woken writer: wwait-- (line 121), guard re-checked and false, admitted. -/
  | writerWakeProceed (s : SyncState) :
      0 < s.wwait → ¬ writer_blocked { s with wwait := s.wwait - 1 } →
      SyncStep s (writer_unblock { s with wwait := s.wwait - 1 })
  /-- woken writer: guard still true; net identity. -/
  | writerWakeReblock (s : SyncState) :
      0 < s.wwait → writer_blocked { s with wwait := s.wwait - 1 } →
      SyncStep s s
  /-- writer_exit_protocol (lines 129-144). -/
  | writerExit (s : SyncState) :
      0 < s.wcount → SyncStep s (writer_exit_protocol s).1
  /-- quiescence wait, loop entered: cwait := true then wait
  (tree_remove lines 268-273, bfs_clear lines 296-301). -/
  | clearWaitBlock (s : SyncState) :
      ¬ quiescent s → SyncStep s { s with cwait := true }
  /-- woken quiescence waiter: cwait := false, condition now true, proceed. -/
  | clearWakeProceed (s : SyncState) :
      s.cwait = true → quiescent s → SyncStep s { s with cwait := false }
  /-- woken quiescence waiter: condition still false, cwait set again. -/
  | clearWakeReblock (s : SyncState) :
      s.cwait = true → ¬ quiescent s → SyncStep s s

/-- States reachable from a fresh node by protocol steps. -/
inductive SyncReachable : SyncState → Prop where
  | init : SyncReachable initSync
  | step {s s' : SyncState} :
      SyncReachable s → SyncStep s s' → SyncReachable s'

/-- The inductive strengthening of the exclusion invariant. -/
def SyncInv (s : SyncState) : Prop :=
  0 ≤ s.rcount ∧ 0 ≤ s.wcount ∧ 0 ≤ s.rwait ∧ 0 ≤ s.wwait ∧
  s.wcount ≤ 1 ∧ (s.wcount = 1 → s.rcount = 0 ∧ s.change ≤ 0)

lemma syncInv_init : SyncInv initSync := by
  simp [SyncInv, initSync]

lemma syncInv_step {s s' : SyncState} (hinv : SyncInv s) (hstep : SyncStep s s') :
    SyncInv s' := by
  cases hstep with
  | readerEnterFast hg =>
    simp only [SyncInv, reader_unblock, reader_blocked] at *
    split <;> omega
  | readerEnterWait hg =>
    simp only [SyncInv] at *
    omega
  | readerWakeProceed hr hg =>
    simp only [SyncInv, reader_unblock, reader_blocked] at *
    split <;> omega
  | readerWakeReblock hr hg => exact hinv
  | readerExit hr =>
    simp only [SyncInv, reader_exit_protocol] at *
    split
    · dsimp only
      omega
    · split <;> (dsimp only; omega)
  | writerEnterFast hg =>
    simp only [SyncInv, writer_unblock, writer_blocked] at *
    omega
  | writerEnterWait hg =>
    simp only [SyncInv] at *
    omega
  | writerWakeProceed hw hg =>
    simp only [SyncInv, writer_unblock, writer_blocked] at *
    omega
  | writerWakeReblock hw hg => exact hinv
  | writerExit hw =>
    simp only [SyncInv, writer_exit_protocol] at *
    split
    · dsimp only
      omega
    · split
      · dsimp only
        omega
      · split <;> (dsimp only; omega)
  | clearWaitBlock hq =>
    simp only [SyncInv] at *
    omega
  | clearWakeProceed hc hq =>
    simp only [SyncInv] at *
    omega
  | clearWakeReblock hc hq => exact hinv

lemma syncInv_of_reachable {s : SyncState} (h : SyncReachable s) : SyncInv s := by
  induction h with
  | init => exact syncInv_init
  | step _ hstep ih => exact syncInv_step ih hstep

/-- C1: every reachable synchronization state of a node has wcount equal
to 0 or 1, and whenever wcount equals 1 the reader count rcount is 0;
the exclusion invariant is preserved by every step of the reader and
writer entry and exit protocols (it is proved by induction over the step
relation covering exactly those protocol regions). -/
theorem c1_exclusion_invariant (s : SyncState) (h : SyncReachable s) :
    (s.wcount = 0 ∨ s.wcount = 1) ∧ (s.wcount = 1 → s.rcount = 0) := by
  have hinv := syncInv_of_reachable h
  rcases hinv with ⟨h1, h2, h3, h4, h5, h6⟩
  refine ⟨by omega, fun hw => (h6 hw).1⟩

/-- Witness for C1 at the initial state of a fresh node. -/
theorem c1_exclusion_invariant_witness :
    (initSync.wcount = 0 ∨ initSync.wcount = 1) ∧
    (initSync.wcount = 1 → initSync.rcount = 0) :=
  c1_exclusion_invariant initSync SyncReachable.init

/-- C2: writer_exit_protocol decrements wcount by one in every case and
hands the baton in priority order: when rwait is positive it sets change
to rwait and signals the readers condition; otherwise when wwait is
positive it sets change to -1 and signals the writers condition;
otherwise when cwait holds it signals the clear condition. -/
theorem c2_writer_exit_priority (s : SyncState) :
    (writer_exit_protocol s).1.wcount = s.wcount - 1 ∧
    (0 < s.rwait →
      (writer_exit_protocol s).1.change = s.rwait ∧
      (writer_exit_protocol s).2 = Signal.readers) ∧
    (s.rwait ≤ 0 → 0 < s.wwait →
      (writer_exit_protocol s).1.change = -1 ∧
      (writer_exit_protocol s).2 = Signal.writers) ∧
    (s.rwait ≤ 0 → s.wwait ≤ 0 → s.cwait = true →
      (writer_exit_protocol s).2 = Signal.clear) := by
  simp only [writer_exit_protocol]
  split
  · rename_i h
    dsimp only
    exact ⟨rfl, fun _ => ⟨rfl, rfl⟩,
      fun h1 _ => absurd h1 (by omega),
      fun h1 _ _ => absurd h1 (by omega)⟩
  · rename_i h
    split
    · rename_i h2
      dsimp only
      exact ⟨rfl, fun hr => absurd hr (by omega), fun _ _ => ⟨rfl, rfl⟩,
        fun _ h3 _ => absurd h3 (by omega)⟩
    · rename_i h2
      split
      · rename_i h3
        dsimp only
        exact ⟨rfl, fun hr => absurd hr (by omega),
          fun _ hw => absurd hw (by omega), fun _ _ _ => rfl⟩
      · rename_i h3
        dsimp only
        exact ⟨rfl, fun hr => absurd hr (by omega),
          fun _ hw => absurd hw (by omega), fun _ _ hc => absurd hc h3⟩

/-- Witness for C2 at a state with one active writer, two waiting
readers and one waiting writer: the readers get the baton. -/
theorem c2_writer_exit_priority_witness :
    (0 : Int) < (⟨0, 1, 2, 1, 0, false⟩ : SyncState).rwait ∧
    (writer_exit_protocol ⟨0, 1, 2, 1, 0, false⟩).1.change =
      (⟨0, 1, 2, 1, 0, false⟩ : SyncState).rwait ∧
    (writer_exit_protocol ⟨0, 1, 2, 1, 0, false⟩).2 = Signal.readers :=
  ⟨by decide, (c2_writer_exit_priority ⟨0, 1, 2, 1, 0, false⟩).2.1 (by decide)⟩

/-! ## The name-to-child map

Modelled from the spec: the external HashMap is a mapping from folder
name to child with insert (overwrite-or-insert), lookup, remove and
size.  It is represented as an association list with unique keys;
hmap_remove removes every binding of the key, hmap_insert overwrites the
first one. -/

def hmap_get {α : Type} : List (String × α) → String → Option α
  | [], _ => none
  | (k, v) :: rest, key => if k = key then some v else hmap_get rest key

def hmap_insert {α : Type} : List (String × α) → String → α → List (String × α)
  | [], key, val => [(key, val)]
  | (k, v) :: rest, key, val =>
    if k = key then (key, val) :: rest else (k, v) :: hmap_insert rest key val

def hmap_remove {α : Type} : List (String × α) → String → List (String × α)
  | [], _ => []
  | (k, v) :: rest, key =>
    if k = key then hmap_remove rest key else (k, v) :: hmap_remove rest key

def hmap_size {α : Type} (m : List (String × α)) : Nat := m.length

/-- Modelled from the spec: make_map_contents_string renders the keys of
a map as a comma-joined list, the empty map giving the empty string. -/
def make_map_contents_string {α : Type} (m : List (String × α)) : String :=
  String.intercalate "," (m.map Prod.fst)

lemma hmap_get_insert_self {α : Type} (m : List (String × α)) (k : String) (v : α) :
    hmap_get (hmap_insert m k v) k = some v := by
  induction m with
  | nil => simp [hmap_insert, hmap_get]
  | cons hd tl ih =>
    obtain ⟨k1, v1⟩ := hd
    by_cases h : k1 = k <;> simp [hmap_insert, hmap_get, h, ih]

lemma hmap_get_insert_ne {α : Type} (m : List (String × α)) (k k2 : String) (v : α)
    (h : k2 ≠ k) : hmap_get (hmap_insert m k v) k2 = hmap_get m k2 := by
  have h' : ¬ (k = k2) := fun he => h he.symm
  induction m with
  | nil => simp [hmap_insert, hmap_get, h']
  | cons hd tl ih =>
    obtain ⟨k1, v1⟩ := hd
    by_cases h1 : k1 = k
    · subst h1
      simp [hmap_insert, hmap_get, h']
    · by_cases h2 : k1 = k2 <;> simp [hmap_insert, hmap_get, h1, h2, h, ih]

lemma hmap_insert_self {α : Type} (m : List (String × α)) (k : String) (v : α)
    (h : hmap_get m k = some v) : hmap_insert m k v = m := by
  induction m with
  | nil => simp [hmap_get] at h
  | cons hd tl ih =>
    obtain ⟨k1, v1⟩ := hd
    by_cases h1 : k1 = k
    · subst h1
      simp [hmap_get] at h
      simp [hmap_insert, h]
    · simp [hmap_get, h1] at h
      simp [hmap_insert, h1, ih h]

lemma hmap_insert_insert {α : Type} (m : List (String × α)) (k : String) (v w : α) :
    hmap_insert (hmap_insert m k v) k w = hmap_insert m k w := by
  induction m with
  | nil => simp [hmap_insert]
  | cons hd tl ih =>
    obtain ⟨k1, v1⟩ := hd
    by_cases h1 : k1 = k <;> simp [hmap_insert, h1, ih]

lemma hmap_get_remove_self {α : Type} (m : List (String × α)) (k : String) :
    hmap_get (hmap_remove m k) k = none := by
  induction m with
  | nil => simp [hmap_remove, hmap_get]
  | cons hd tl ih =>
    obtain ⟨k1, v1⟩ := hd
    by_cases h1 : k1 = k <;> simp [hmap_remove, hmap_get, h1, ih]

lemma hmap_get_remove_ne {α : Type} (m : List (String × α)) (k k2 : String)
    (h : k2 ≠ k) : hmap_get (hmap_remove m k) k2 = hmap_get m k2 := by
  have h' : ¬ (k = k2) := fun he => h he.symm
  induction m with
  | nil => simp [hmap_remove]
  | cons hd tl ih =>
    obtain ⟨k1, v1⟩ := hd
    by_cases h1 : k1 = k
    · subst h1
      simp [hmap_remove, hmap_get, h', ih]
    · by_cases h2 : k1 = k2 <;> simp [hmap_remove, hmap_get, h1, h2, h, ih]

lemma hmap_remove_insert {α : Type} (m : List (String × α)) (k : String) (v : α)
    (h : hmap_get m k = none) : hmap_remove (hmap_insert m k v) k = m := by
  induction m with
  | nil => simp [hmap_insert, hmap_remove]
  | cons hd tl ih =>
    obtain ⟨k1, v1⟩ := hd
    by_cases h1 : k1 = k
    · simp [hmap_get, h1] at h
    · simp [hmap_get, h1] at h
      simp [hmap_insert, hmap_remove, h1, ih h]

/-! ## Path strings

Modelled from the spec: a valid path matches the shape
slash (name slash)* where each name is 1 to MAX_FOLDER_NAME_LENGTH
permitted characters (lowercase letters).  parse_path returns the list
of components of a valid path and none otherwise; the root path yields
the empty list.  split_path of the source corresponds to consuming the
head of the component list, make_path_to_parent to splitting off the
last component, count_slashes of a valid path to the component count
plus one, and common_files to the shared leading component count plus
one. -/

def MAX_FOLDER_NAME_LENGTH : Nat := 255

def permitted_char (c : Char) : Prop := 'a' ≤ c ∧ c ≤ 'z'

instance (c : Char) : Decidable (permitted_char c) := by
  unfold permitted_char; infer_instance

/-- Scanner for the part of a path after the leading slash: acc holds
the characters of the current component in reverse. -/
def parse_rest (acc : List Char) : List Char → Option (List String)
  | [] => if acc.isEmpty then some [] else none
  | c :: rest =>
    if c = '/' then
      if acc.isEmpty then none
      else if acc.length ≤ MAX_FOLDER_NAME_LENGTH then
        (parse_rest [] rest).map (fun l => String.mk acc.reverse :: l)
      else none
    else if permitted_char c then parse_rest (c :: acc) rest
    else none

/-- Components of a valid path, none for an invalid one. -/
def parse_path (p : String) : Option (List String) :=
  match p.data with
  | '/' :: rest => parse_rest [] rest
  | _ => none

/-- is_path_valid of path_utils, modelled from the spec. -/
def is_path_valid (p : String) : Bool := (parse_path p).isSome

def validName (n : String) : Prop :=
  n.data ≠ [] ∧ n.data.length ≤ MAX_FOLDER_NAME_LENGTH ∧
  ∀ c ∈ n.data, permitted_char c

/-- Character list of the rendering of a component list back to a path
string (the inverse direction of parse_path). -/
def render_rest : List String → List Char
  | [] => []
  | n :: rest => n.data ++ '/' :: render_rest rest

def render_path (comps : List String) : String := ⟨'/' :: render_rest comps⟩

/-- make_path_to_parent of path_utils, modelled from the spec: for the
root it is none, otherwise the parent path and the last component. -/
def make_path_to_parent (p : String) : Option (String × String) :=
  match parse_path p with
  | none => none
  | some comps =>
    match comps.getLast? with
    | none => none
    | some c => some (render_path comps.dropLast, c)

lemma parse_rest_chars {cs acc l} (hacc : ∀ c ∈ acc, permitted_char c)
    (h : parse_rest acc cs = some l) : ∀ n ∈ l, validName n := by
  induction cs generalizing acc l with
  | nil =>
    simp only [parse_rest] at h
    split at h
    · simp only [Option.some.injEq] at h
      subst h
      simp
    · exact absurd h (by simp)
  | cons c rest ih =>
    simp only [parse_rest] at h
    split at h
    · rename_i hslash
      split at h
      · exact absurd h (by simp)
      · rename_i hne
        split at h
        · rename_i hlen
          cases hrec : parse_rest [] rest with
          | none => rw [hrec] at h; exact absurd h (by simp)
          | some l2 =>
            rw [hrec] at h
            simp only [Option.map, Option.bind] at h
            rw [Option.some.injEq] at h
            subst h
            intro n hn
            rcases List.mem_cons.mp hn with hn | hn
            · subst hn
              refine ⟨by simpa using hne, by simpa using hlen, ?_⟩
              intro ch hch
              exact hacc ch (by simpa using hch)
            · exact ih (by simp) hrec n hn
        · exact absurd h (by simp)
    · split at h
      · rename_i hperm
        intro n hn
        refine ih ?_ h n hn
        intro ch hch
        rcases List.mem_cons.mp hch with hch | hch
        · subst hch; exact hperm
        · exact hacc ch hch
      · exact absurd h (by simp)

lemma parse_rest_append_name (ns : List Char) (acc : List Char) (cs : List Char)
    (h : ∀ c ∈ ns, permitted_char c) :
    parse_rest acc (ns ++ cs) = parse_rest (ns.reverse ++ acc) cs := by
  induction ns generalizing acc with
  | nil => simp
  | cons c ns ih =>
    have hc : permitted_char c := h c (by simp)
    have hslash : c ≠ '/' := by
      intro he
      subst he
      exact absurd hc (by decide)
    simp only [List.cons_append, List.append_eq, parse_rest, if_neg hslash, if_pos hc]
    rw [ih _ (fun x hx => h x (by simp [hx]))]
    simp

/-- Round trip: rendering a list of valid components parses back to it. -/
lemma parse_render (comps : List String) (h : ∀ n ∈ comps, validName n) :
    parse_path (render_path comps) = some comps := by
  suffices hs : ∀ comps, (∀ n ∈ comps, validName n) →
      parse_rest [] (render_rest comps) = some comps by
    simpa [parse_path, render_path] using hs comps h
  intro comps h
  induction comps with
  | nil => simp [render_rest, parse_rest]
  | cons n rest ih =>
    obtain ⟨hne, hlen, hperm⟩ := h n (by simp)
    obtain ⟨nd⟩ := n
    simp only [render_rest]
    rw [parse_rest_append_name nd [] ('/' :: render_rest rest) hperm]
    rw [List.append_nil]
    have h1 : nd.reverse.isEmpty = false := by
      simpa using hne
    have h2 : nd.reverse.length ≤ MAX_FOLDER_NAME_LENGTH := by
      simpa using hlen
    have h3 : nd.length ≤ MAX_FOLDER_NAME_LENGTH := hlen
    simp [parse_rest, h1, h2, h3, ih (fun x hx => h x (by simp [hx]))]

/-- The rendering of the parse: a parsed path string is exactly the
rendering of its components. -/
lemma parse_path_render {p : String} {comps : List String}
    (h : parse_path p = some comps) : p = render_path comps := by
  suffices hs : ∀ cs acc l, parse_rest acc cs = some l →
      acc.reverse ++ cs = render_rest l by
    unfold parse_path at h
    split at h
    · rename_i rest heq
      have := hs rest [] comps h
      simp only [List.reverse_nil, List.nil_append] at this
      cases p
      rename_i data
      simp only at heq
      simp [render_path, heq, this]
    · exact absurd h (by simp)
  intro cs
  induction cs with
  | nil =>
    intro acc l h
    simp only [parse_rest] at h
    split at h
    · rename_i hacc
      simp only [Option.some.injEq] at h
      subst h
      simp [render_rest, List.isEmpty_iff.mp hacc]
    · exact absurd h (by simp)
  | cons c rest ih =>
    intro acc l h
    simp only [parse_rest] at h
    split at h
    · rename_i hslash
      subst hslash
      split at h
      · exact absurd h (by simp)
      · split at h
        · cases hrec : parse_rest [] rest with
          | none => rw [hrec] at h; exact absurd h (by simp)
          | some l2 =>
            rw [hrec] at h
            simp only [Option.map, Option.bind] at h
            rw [Option.some.injEq] at h
            subst h
            have := ih [] l2 hrec
            simp only [List.reverse_nil, List.nil_append] at this
            simp [render_rest, ← this]
        · exact absurd h (by simp)
    · split at h
      · have := ih (c :: acc) l h
        simpa using this
      · exact absurd h (by simp)

lemma parse_path_root : parse_path "/" = some [] := by decide

lemma parse_path_ne_empty {p : String} {comps : List String}
    (h : parse_path p = some comps) : p.data ≠ [] := by
  unfold parse_path at h
  split at h
  · rename_i heq
    simp [heq]
  · exact absurd h (by simp)

lemma parse_path_components (p : String) (comps : List String)
    (h : parse_path p = some comps) : ∀ n ∈ comps, validName n := by
  unfold parse_path at h
  split at h
  · exact parse_rest_chars (by simp) h
  · exact absurd h (by simp)

/-- A parsed path with no components is the root string. -/
lemma parse_path_nil {p : String} (h : parse_path p = some []) : p = "/" := by
  have := parse_path_render h
  simpa [render_path, render_rest] using this

/-! ## The directory tree

struct Tree (lines 30-41) with the synchronization fields erased: a
node is its HashMap from folder names to children. -/

inductive FsTree where
  | node : List (String × FsTree) → FsTree

def FsTree.children : FsTree → List (String × FsTree)
  | node m => m

/-- Pure descent along a component list: the node the traversal loops of
tree_list (lines 155-178), find_node (lines 191-207) and move_dfs
(lines 318-339) reach, none when a component is missing. -/
def findNode : FsTree → List String → Option FsTree
  | t, [] => some t
  | t, c :: rest =>
    match hmap_get t.children c with
    | none => none
    | some child => findNode child rest

/-- Descent of find_node combined with the mutation the caller performs
on the final node: rebuilds the tree along the path, returns ENOENT and
the unchanged tree when a component is missing (line 199). -/
def descendModify : FsTree → List String → (FsTree → FsTree × Int) → FsTree × Int
  | t, [], f => f t
  | t, c :: rest, f =>
    match hmap_get t.children c with
    | none => (t, ENOENT)
    | some child =>
      let r := descendModify child rest f
      (FsTree.node (hmap_insert t.children c r.1), r.2)

/-- tree_list (lines 148-180). -/
def tree_list (tr : FsTree) (p : String) : Option String :=
  match parse_path p with
  | none => none
  | some comps =>
    match findNode tr comps with
    | none => none
    | some nd => some (make_map_contents_string nd.children)

/-- The mutation tree_create performs on the writer-locked parent
(lines 229-235): EEXIST when the name is present, otherwise insert a
fresh empty node. -/
def create_op (child_name : String) (nd : FsTree) : FsTree × Int :=
  match hmap_get nd.children child_name with
  | some _ => (nd, EEXIST)
  | none =>
    (FsTree.node (hmap_insert nd.children child_name (FsTree.node [])), 0)

/-- tree_create (lines 213-241): validate, reject the root, descend to
the parent, then insert a fresh empty node unless the name exists. -/
def tree_create (tr : FsTree) (p : String) : FsTree × Int :=
  match parse_path p with
  | none => (tr, EINVAL)
  | some comps =>
    match comps.getLast? with
    | none => (tr, EEXIST)
    | some child_name => descendModify tr comps.dropLast (create_op child_name)

/-- The mutation tree_remove performs on the writer-locked parent
(lines 261-284): ENOENT when the name is missing, ENOTEMPTY when the
child map is non-empty, otherwise remove the child. -/
def remove_op (child_name : String) (nd : FsTree) : FsTree × Int :=
  match hmap_get nd.children child_name with
  | none => (nd, ENOENT)
  | some son =>
    if hmap_size son.children ≠ 0 then (nd, ENOTEMPTY)
    else (FsTree.node (hmap_remove nd.children child_name), 0)

/-- tree_remove (lines 245-290): validate, reject the root, descend to
the parent, then remove the named child when it exists and is empty
(the quiescence wait on the child has no sequential effect). -/
def tree_remove (tr : FsTree) (p : String) : FsTree × Int :=
  match parse_path p with
  | none => (tr, EINVAL)
  | some comps =>
    match comps.getLast? with
    | none => (tr, EBUSY)
    | some child_name => descendModify tr comps.dropLast (remove_op child_name)

/-- Length of the longest shared leading segment of two component
lists; equals common_files of path_utils minus one. -/
def commonLen : List String → List String → Nat
  | x :: xs, y :: ys => if x = y then commonLen xs ys + 1 else 0
  | _, _ => 0

/-- The splice of source_dfs line 373: remove the source name from the
writer-locked source parent. -/
def splice_remove_op (s : String) (nd : FsTree) : FsTree × Int :=
  (FsTree.node (hmap_remove nd.children s), 0)

/-- The splice of source_dfs line 374: insert the moved subtree under
the target name in the writer-locked target parent. -/
def splice_insert_op (t : String) (sub : FsTree) (nd : FsTree) : FsTree × Int :=
  (FsTree.node (hmap_insert nd.children t sub), 0)

/-- tree_move (lines 410-476) together with target_dfs (383-406) and
source_dfs (345-379), locks erased: validate, reject a root source
(EBUSY) and a root target (EEXIST), reject a source that is a strict
string prefix of the target (the strncmp check of lines 418-420, code
-1), descend the shared prefix of the two parent paths to the LCA, then
to the target parent (EEXIST when the target name is present), then to
the source parent (ENOENT when the source name is missing), finally
splice: remove the source name from the source parent and insert the
subtree under the target name in the target parent. -/
def tree_move (tr : FsTree) (source target : String) : FsTree × Int :=
  match parse_path source, parse_path target with
  | none, _ => (tr, EINVAL)
  | _, none => (tr, EINVAL)
  | some scomps, some tcomps =>
    if source = "/" then (tr, EBUSY)
    else if target = "/" then (tr, EEXIST)
    -- strlen comparison and strncmp over the first strlen(source) bytes
    else if source.length < target.length ∧
        target.data.take source.length = source.data then (tr, -1)
    else
      match scomps.getLast?, tcomps.getLast? with
      | some s, some t =>
        let S := scomps.dropLast
        let T := tcomps.dropLast
        let common := commonLen S T
        match findNode tr (S.take common) with
        | none => (tr, ENOENT)
        | some lca =>
          match findNode lca (T.drop common) with
          | none => (tr, ENOENT)
          | some target_tree =>
            match hmap_get target_tree.children t with
            | some _ => (tr, EEXIST)
            | none =>
              match findNode lca (S.drop common) with
              | none => (tr, ENOENT)
              | some source_tree =>
                match hmap_get source_tree.children s with
                | none => (tr, ENOENT)
                | some to_be_moved =>
                  let tr1 := (descendModify tr S (splice_remove_op s)).1
                  let tr2 :=
                    (descendModify tr1 T (splice_insert_op t to_be_moved)).1
                  (tr2, 0)
      -- unreachable: a parsed path other than the root has a last component
      | _, _ => (tr, EINVAL)

/-! ## Structural lemmas about descent and modification -/

@[simp] lemma FsTree.children_node (m : List (String × FsTree)) :
    (FsTree.node m).children = m := rfl

@[simp] lemma findNode_nil (t : FsTree) : findNode t [] = some t := rfl

lemma descendModify_cons_none (m : List (String × FsTree)) (c : String)
    (rest : List String) (f : FsTree → FsTree × Int)
    (hget : hmap_get m c = none) :
    descendModify (FsTree.node m) (c :: rest) f = (FsTree.node m, ENOENT) := by
  simp [descendModify, hget]

lemma descendModify_cons_some (m : List (String × FsTree)) (c : String)
    (ch : FsTree) (rest : List String) (f : FsTree → FsTree × Int)
    (hget : hmap_get m c = some ch) :
    descendModify (FsTree.node m) (c :: rest) f =
      (FsTree.node (hmap_insert m c (descendModify ch rest f).1),
        (descendModify ch rest f).2) := by
  simp [descendModify, hget]

lemma findNode_cons (t : FsTree) (c : String) (rest : List String) :
    findNode t (c :: rest) =
      (hmap_get t.children c).bind (fun ch => findNode ch rest) := by
  cases t with
  | node m => cases hget : hmap_get m c <;> simp [findNode, hget]

lemma findNode_append (t : FsTree) (xs ys : List String) :
    findNode t (xs ++ ys) = (findNode t xs).bind (fun nd => findNode nd ys) := by
  induction xs generalizing t with
  | nil => simp
  | cons c rest ih =>
    rw [List.cons_append, findNode_cons, findNode_cons]
    cases hget : hmap_get t.children c with
    | none => simp
    | some ch => simp [ih]

/-- A descent that misses a component leaves the tree unchanged. -/
lemma descendModify_fst_of_findNode_none (t : FsTree) (P : List String)
    (f : FsTree → FsTree × Int) (h : findNode t P = none) :
    (descendModify t P f).1 = t := by
  induction P generalizing t with
  | nil => simp at h
  | cons c rest ih =>
    rw [findNode_cons] at h
    cases t with
    | node m =>
      cases hget : hmap_get m c with
      | none => simp [descendModify, hget]
      | some ch =>
        simp only [FsTree.children_node, hget] at h
        simp only [Option.some_bind] at h
        simp only [descendModify, FsTree.children_node, hget]
        rw [ih ch h]
        simp [hmap_insert_self _ _ _ hget]

lemma descendModify_snd_of_findNode_none (t : FsTree) (P : List String)
    (f : FsTree → FsTree × Int) (h : findNode t P = none) :
    (descendModify t P f).2 = ENOENT := by
  induction P generalizing t with
  | nil => simp at h
  | cons c rest ih =>
    rw [findNode_cons] at h
    cases t with
    | node m =>
      cases hget : hmap_get m c with
      | none => simp [descendModify, hget]
      | some ch =>
        simp only [FsTree.children_node, hget] at h
        simp only [Option.some_bind] at h
        simp only [descendModify, FsTree.children_node, hget]
        exact ih ch h

/-- The error code of a successful descent is the code of the operation
applied at the node reached. -/
lemma descendModify_snd (t : FsTree) (P : List String) (nd : FsTree)
    (f : FsTree → FsTree × Int) (h : findNode t P = some nd) :
    (descendModify t P f).2 = (f nd).2 := by
  induction P generalizing t with
  | nil =>
    simp only [findNode_nil, Option.some.injEq] at h
    subst h
    rfl
  | cons c rest ih =>
    rw [findNode_cons] at h
    cases t with
    | node m =>
      cases hget : hmap_get m c with
      | none => simp only [FsTree.children_node, hget] at h; simp at h
      | some ch =>
        simp only [FsTree.children_node, hget] at h
        simp only [Option.some_bind] at h
        simp only [descendModify, FsTree.children_node, hget]
        exact ih ch h

/-- A descent whose operation returns the reached node unchanged leaves
the tree unchanged. -/
lemma descendModify_fst_id (t : FsTree) (P : List String) (nd : FsTree)
    (f : FsTree → FsTree × Int) (h : findNode t P = some nd)
    (hf : (f nd).1 = nd) : (descendModify t P f).1 = t := by
  induction P generalizing t with
  | nil =>
    simp only [findNode_nil, Option.some.injEq] at h
    subst h
    exact hf
  | cons c rest ih =>
    rw [findNode_cons] at h
    cases t with
    | node m =>
      cases hget : hmap_get m c with
      | none => simp only [FsTree.children_node, hget] at h; simp at h
      | some ch =>
        simp only [FsTree.children_node, hget] at h
        simp only [Option.some_bind] at h
        simp only [descendModify, FsTree.children_node, hget]
        rw [ih ch h]
        simp [hmap_insert_self _ _ _ hget]

/-- Looking below the modified node: descending the modified path and
then further continues inside the modified subtree. -/
lemma descendModify_findNode_append (t : FsTree) (P : List String) (nd : FsTree)
    (f : FsTree → FsTree × Int) (h : findNode t P = some nd) (R : List String) :
    findNode (descendModify t P f).1 (P ++ R) = findNode (f nd).1 R := by
  induction P generalizing t with
  | nil =>
    simp only [findNode_nil, Option.some.injEq] at h
    subst h
    rfl
  | cons c rest ih =>
    rw [findNode_cons] at h
    cases t with
    | node m =>
      cases hget : hmap_get m c with
      | none => simp only [FsTree.children_node, hget] at h; simp at h
      | some ch =>
        simp only [FsTree.children_node, hget] at h
        simp only [Option.some_bind] at h
        simp only [descendModify, FsTree.children_node, hget]
        rw [List.cons_append, findNode_cons]
        simp only [FsTree.children_node, hmap_get_insert_self, Option.some_bind]
        exact ih ch h

/-- Modification at the reached node seen from the reached node. -/
lemma descendModify_findNode_self (t : FsTree) (P : List String) (nd : FsTree)
    (f : FsTree → FsTree × Int) (h : findNode t P = some nd) :
    findNode (descendModify t P f).1 P = some (f nd).1 := by
  have := descendModify_findNode_append t P nd f h []
  simpa using this

/-- A lookup on a path diverging from the modified path is unchanged. -/
lemma descendModify_findNode_diverge (C : List String) (a b : String)
    (P2 Q2 : List String) (t : FsTree) (f : FsTree → FsTree × Int)
    (hab : a ≠ b) :
    findNode (descendModify t (C ++ a :: P2) f).1 (C ++ b :: Q2) =
      findNode t (C ++ b :: Q2) := by
  induction C generalizing t with
  | nil =>
    cases t with
    | node m =>
      cases hget : hmap_get m a with
      | none => simp [descendModify, hget]
      | some ch =>
        simp only [List.nil_append, descendModify, FsTree.children_node, hget]
        rw [findNode_cons, findNode_cons]
        simp only [FsTree.children_node]
        rw [hmap_get_insert_ne _ _ _ _ (fun he => hab he.symm)]
  | cons c C' ih =>
    cases t with
    | node m =>
      cases hget : hmap_get m c with
      | none => simp [descendModify, hget]
      | some ch =>
        simp only [List.cons_append, descendModify, FsTree.children_node, hget]
        rw [findNode_cons, findNode_cons]
        simp only [FsTree.children_node, hmap_get_insert_self, hget,
          Option.some_bind]
        exact ih ch

/-- A lookup at a strict ancestor of the modified path meets a node
whose map differs only at the next component of the modified path. -/
lemma descendModify_findNode_above (Q : List String) (u : String)
    (P2 : List String) (t : FsTree) (f : FsTree → FsTree × Int)
    (s : String) (hsu : s ≠ u) (mQ : List (String × FsTree))
    (h : findNode t Q = some (FsTree.node mQ)) :
    ∃ m2, findNode (descendModify t (Q ++ u :: P2) f).1 Q =
      some (FsTree.node m2) ∧ hmap_get m2 s = hmap_get mQ s := by
  induction Q generalizing t with
  | nil =>
    simp only [findNode_nil, Option.some.injEq] at h
    subst h
    cases hget : hmap_get mQ u with
    | none => exact ⟨mQ, by simp [descendModify, hget], rfl⟩
    | some ch =>
      refine ⟨hmap_insert mQ u ((descendModify ch P2 f).1), ?_, ?_⟩
      · simp [descendModify, hget]
      · exact hmap_get_insert_ne _ _ _ _ hsu
  | cons c Q' ih =>
    rw [findNode_cons] at h
    cases t with
    | node m =>
      cases hget : hmap_get m c with
      | none => simp only [FsTree.children_node, hget] at h; simp at h
      | some ch =>
        simp only [FsTree.children_node, hget] at h
        simp only [Option.some_bind] at h
        obtain ⟨m2, hm2, hgs⟩ := ih ch h
        refine ⟨m2, ?_, hgs⟩
        rw [List.cons_append, descendModify_cons_some m c ch _ f hget,
          findNode_cons]
        simp only [FsTree.children_node, hmap_get_insert_self, Option.some_bind]
        exact hm2

/-- Two successive modifications along the same existing path compose. -/
lemma descendModify_descendModify (P : List String) (t : FsTree) (nd : FsTree)
    (f g : FsTree → FsTree × Int) (h : findNode t P = some nd) :
    (descendModify (descendModify t P f).1 P g).1 =
      (descendModify t P (fun x => ((g (f x).1).1, 0))).1 := by
  induction P generalizing t with
  | nil =>
    simp only [findNode_nil, Option.some.injEq] at h
    subst h
    rfl
  | cons c rest ih =>
    rw [findNode_cons] at h
    cases t with
    | node m =>
      cases hget : hmap_get m c with
      | none => simp only [FsTree.children_node, hget] at h; simp at h
      | some ch =>
        simp only [FsTree.children_node, hget] at h
        simp only [Option.some_bind] at h
        simp only [descendModify, hget, FsTree.children_node,
          hmap_get_insert_self]
        rw [hmap_insert_insert, ih ch h]

/-! ## Helper facts for the operation theorems -/

lemma commonLen_self (l : List String) : commonLen l l = l.length := by
  induction l with
  | nil => rfl
  | cons x xs ih => simp [commonLen, ih]

lemma enoent_ne_zero : ENOENT ≠ 0 := by decide
lemma eexist_ne_zero : EEXIST ≠ 0 := by decide
lemma enotempty_ne_zero : ENOTEMPTY ≠ 0 := by decide

/-- Splitting off the last component of a non-root parsed path. -/
lemma comps_ne_nil {p : String} {comps : List String}
    (hp : parse_path p = some comps) (hroot : p ≠ "/") : comps ≠ [] := by
  intro he
  subst he
  exact hroot (parse_path_nil hp)

/-- The node of a path is the child of the node of its parent path. -/
lemma findNode_parent_child (tr : FsTree) (P : List String) (c : String) :
    findNode tr (P ++ [c]) =
      (findNode tr P).bind (fun nd => hmap_get nd.children c) := by
  rw [findNode_append]
  cases findNode tr P with
  | none => rfl
  | some nd =>
    simp only [Option.some_bind]
    rw [findNode_cons]
    cases hmap_get nd.children c <;> simp

/-! ## Claim C5 -/

/-- Counterexample to C5 as stated: the root path names an existing
folder whose child map is non-empty, yet remove of the root returns
EBUSY, not ENOTEMPTY (the root check of tree_remove line 248 fires
first). -/
theorem c5_counterexample :
    tree_remove (FsTree.node [("a", FsTree.node [])]) "/" =
      (FsTree.node [("a", FsTree.node [])], EBUSY) ∧
    EBUSY ≠ ENOTEMPTY := by
  constructor
  · rfl
  · decide

/-- C5 amended: for every non-root path p naming an existing folder
whose child map is non-empty, tree_remove returns ENOTEMPTY and leaves
the tree unchanged. -/
theorem c5_remove_nonempty (tr : FsTree) (p : String) (comps : List String)
    (m : List (String × FsTree)) (hp : parse_path p = some comps)
    (hroot : p ≠ "/") (hfind : findNode tr comps = some (FsTree.node m))
    (hne : m ≠ []) : tree_remove tr p = (tr, ENOTEMPTY) := by
  have hcne : comps ≠ [] := comps_ne_nil hp hroot
  have hlast : comps.getLast? = some (comps.getLast hcne) :=
    List.getLast?_eq_getLast comps hcne
  have hsplit : comps.dropLast ++ [comps.getLast hcne] = comps :=
    List.dropLast_append_getLast hcne
  rw [← hsplit, findNode_parent_child] at hfind
  cases hparent : findNode tr comps.dropLast with
  | none => rw [hparent] at hfind; simp at hfind
  | some pnd =>
    rw [hparent] at hfind
    simp only [Option.some_bind] at hfind
    simp only [tree_remove, hp, hlast]
    refine Prod.ext ?_ ?_
    · refine descendModify_fst_id tr comps.dropLast pnd _ hparent ?_
      simp only [remove_op, hfind]
      rw [if_pos]
      simpa [hmap_size] using hne
    · rw [descendModify_snd tr comps.dropLast pnd _ hparent]
      simp only [remove_op, hfind]
      rw [if_pos]
      simpa [hmap_size] using hne

/-- Witness for the amended C5 on a concrete two-level tree. -/
theorem c5_remove_nonempty_witness :
    tree_remove (FsTree.node [("a", FsTree.node [("b", FsTree.node [])])])
      "/a/" =
      (FsTree.node [("a", FsTree.node [("b", FsTree.node [])])], ENOTEMPTY) :=
  c5_remove_nonempty _ "/a/" ["a"] [("b", FsTree.node [])]
    (by decide) (by decide) rfl (List.cons_ne_nil _ _)

/-! ## Claim C6 -/

/-- Counterexample to C6 as stated: the root path is a valid strict
prefix path (ancestor) of the valid path for a child of the root, yet
move from the root returns EBUSY, not the dedicated code -1 (the root
check of tree_move line 413 fires before the prefix check). -/
theorem c6_counterexample :
    tree_move (FsTree.node []) "/" "/a/" = (FsTree.node [], EBUSY) ∧
    EBUSY ≠ -1 := by
  constructor
  · rfl
  · decide

/-- C6 amended: for valid paths s and t with s not the root and s a
strict prefix path of t (the strncmp check of tree_move lines 418-420),
tree_move returns the dedicated code -1 and leaves the tree unchanged. -/
theorem c6_move_into_subtree (tr : FsTree) (s t : String)
    (hs : is_path_valid s) (ht : is_path_valid t) (hroot : s ≠ "/")
    (hpre : s.length < t.length ∧ t.data.take s.length = s.data) :
    tree_move tr s t = (tr, -1) := by
  obtain ⟨sc, hsc⟩ := Option.isSome_iff_exists.mp hs
  obtain ⟨tc, htc⟩ := Option.isSome_iff_exists.mp ht
  have htroot : t ≠ "/" := by
    intro he
    subst he
    have hlt := hpre.1
    have h1 : ("/" : String).length = 1 := by decide
    have h0 : s.length = 0 := by omega
    have h2 : s.data.length = 0 := h0
    exact (parse_path_ne_empty hsc) (List.length_eq_zero.mp h2)
  simp only [tree_move, hsc, htc]
  rw [if_neg hroot, if_neg htroot, if_pos hpre]

/-- Witness for the amended C6. -/
theorem c6_move_into_subtree_witness :
    tree_move (FsTree.node []) "/a/" "/a/b/" = (FsTree.node [], -1) :=
  c6_move_into_subtree (FsTree.node []) "/a/" "/a/b/"
    (by decide) (by decide) (by decide) (by decide)

/-! ## Claim C7 -/

/-- Counterexample to C7 as stated: for source and target both the root
path, the claim requires EBUSY (source is the root) and also EEXIST
(target is the root); the code returns EBUSY, so the clause that a move
with target the root returns EEXIST fails at this input. -/
theorem c7_counterexample :
    tree_move (FsTree.node []) "/" "/" = (FsTree.node [], EBUSY) ∧
    EBUSY ≠ EEXIST := by
  constructor
  · rfl
  · decide

/-- C7 amended with the check order of the code: creating the root gives
EEXIST and removing it EBUSY; a move from the root gives EBUSY provided
the target is valid, and a move to the root gives EEXIST provided the
source is valid and not the root; for every invalid path argument,
create, remove and move return EINVAL and list returns none, the
validity checks preceding the root checks. -/
theorem c7_root_and_invalid_errors (tr : FsTree) :
    tree_create tr "/" = (tr, EEXIST) ∧
    tree_remove tr "/" = (tr, EBUSY) ∧
    (∀ t, is_path_valid t → tree_move tr "/" t = (tr, EBUSY)) ∧
    (∀ s, is_path_valid s → s ≠ "/" → tree_move tr s "/" = (tr, EEXIST)) ∧
    (∀ p, ¬ is_path_valid p →
      tree_create tr p = (tr, EINVAL) ∧ tree_remove tr p = (tr, EINVAL) ∧
      tree_list tr p = none ∧
      (∀ q, tree_move tr p q = (tr, EINVAL) ∧
        tree_move tr q p = (tr, EINVAL))) := by
  refine ⟨?_, ?_, ?_, ?_, ?_⟩
  · simp [tree_create, parse_path_root]
  · simp [tree_remove, parse_path_root]
  · intro t ht
    obtain ⟨tc, htc⟩ := Option.isSome_iff_exists.mp ht
    simp [tree_move, parse_path_root, htc]
  · intro s hs hroot
    obtain ⟨sc, hsc⟩ := Option.isSome_iff_exists.mp hs
    simp [tree_move, parse_path_root, hsc, hroot]
  · intro p hp
    rw [is_path_valid, Option.isSome_iff_exists] at hp
    push_neg at hp
    have hpn : parse_path p = none := by
      cases h : parse_path p with
      | none => rfl
      | some l => exact absurd h (hp l)
    refine ⟨by simp [tree_create, hpn], by simp [tree_remove, hpn],
      by simp [tree_list, hpn], ?_⟩
    intro q
    refine ⟨by simp [tree_move, hpn], ?_⟩
    cases hq : parse_path q <;> simp [tree_move, hpn, hq]

/-- Witness for the amended C7 (instantiating the quantified clauses at
concrete paths). -/
theorem c7_root_and_invalid_errors_witness :
    tree_create (FsTree.node []) "/" = (FsTree.node [], EEXIST) ∧
    tree_move (FsTree.node []) "/" "/a/" = (FsTree.node [], EBUSY) ∧
    tree_move (FsTree.node []) "/a/" "/" = (FsTree.node [], EEXIST) ∧
    tree_create (FsTree.node []) "//" = (FsTree.node [], EINVAL) := by
  have h := c7_root_and_invalid_errors (FsTree.node [])
  exact ⟨h.1, h.2.2.1 "/a/" (by decide), h.2.2.2.1 "/a/" (by decide) (by decide),
    (h.2.2.2.2 "//" (by decide)).1⟩

/-! ## Claim C10 -/

/-- C10: for a valid non-root path p, a move of p onto itself returns
EEXIST when p exists (the target-existence check of target_dfs line 395
runs before the source lookup of source_dfs line 357) and ENOENT when p
does not exist; the tree is unchanged in both cases. -/
theorem c10_move_onto_itself (tr : FsTree) (p : String) (comps : List String)
    (hp : parse_path p = some comps) (hroot : p ≠ "/") :
    ((findNode tr comps).isSome → tree_move tr p p = (tr, EEXIST)) ∧
    (findNode tr comps = none → tree_move tr p p = (tr, ENOENT)) := by
  have hcne : comps ≠ [] := comps_ne_nil hp hroot
  have hlast : comps.getLast? = some (comps.getLast hcne) :=
    List.getLast?_eq_getLast comps hcne
  have hsplit : comps.dropLast ++ [comps.getLast hcne] = comps :=
    List.dropLast_append_getLast hcne
  have hnopre : ¬ (p.length < p.length ∧
      p.data.take p.length = p.data) := by
    intro hcon
    exact absurd hcon.1 (by omega)
  have hlen : comps.dropLast.length = comps.length - 1 :=
    List.length_dropLast comps
  have htake : List.take (comps.length - 1) comps.dropLast = comps.dropLast := by
    rw [← hlen]
    exact List.take_length _
  have hdrop : List.drop (comps.length - 1) comps.dropLast = [] := by
    rw [← hlen]
    exact List.drop_length _
  constructor
  · intro hex
    obtain ⟨nd, hnd⟩ := Option.isSome_iff_exists.mp hex
    rw [← hsplit, findNode_parent_child] at hnd
    cases hparent : findNode tr comps.dropLast with
    | none => rw [hparent] at hnd; simp at hnd
    | some pnd =>
      rw [hparent] at hnd
      simp only [Option.some_bind] at hnd
      simp [tree_move, hp, hroot, hnopre, hlast, commonLen_self,
        htake, hdrop, hparent, hnd]
  · intro hmiss
    rw [← hsplit, findNode_parent_child] at hmiss
    cases hparent : findNode tr comps.dropLast with
    | none =>
      simp [tree_move, hp, hroot, hnopre, hlast, commonLen_self,
        htake, hdrop, hparent]
    | some pnd =>
      rw [hparent] at hmiss
      simp only [Option.some_bind] at hmiss
      simp [tree_move, hp, hroot, hnopre, hlast, commonLen_self,
        htake, hdrop, hparent, hmiss]

/-- Witness for C10 on a concrete tree holding /a/ : both halves, an
existing folder and a missing one. -/
theorem c10_move_onto_itself_witness :
    tree_move (FsTree.node [("a", FsTree.node [])]) "/a/" "/a/" =
      (FsTree.node [("a", FsTree.node [])], EEXIST) ∧
    tree_move (FsTree.node [("a", FsTree.node [])]) "/b/" "/b/" =
      (FsTree.node [("a", FsTree.node [])], ENOENT) :=
  ⟨(c10_move_onto_itself _ "/a/" ["a"] (by decide) (by decide)).1
      (by rw [show findNode (FsTree.node [("a", FsTree.node [])]) ["a"] =
        some (FsTree.node []) from rfl]; rfl),
    (c10_move_onto_itself _ "/b/" ["b"] (by decide) (by decide)).2 rfl⟩

/-! ## Claim C9 -/

lemma create_op_absent {m : List (String × FsTree)} {c : String}
    (h : hmap_get m c = none) :
    create_op c (FsTree.node m) =
      (FsTree.node (hmap_insert m c (FsTree.node [])), 0) := by
  simp [create_op, h]

lemma create_op_present {m : List (String × FsTree)} {c : String} {v : FsTree}
    (h : hmap_get m c = some v) :
    create_op c (FsTree.node m) = (FsTree.node m, EEXIST) := by
  simp [create_op, h]

lemma remove_op_absent {m : List (String × FsTree)} {c : String}
    (h : hmap_get m c = none) :
    remove_op c (FsTree.node m) = (FsTree.node m, ENOENT) := by
  simp [remove_op, h]

lemma remove_op_empty {m : List (String × FsTree)} {c : String}
    (h : hmap_get m c = some (FsTree.node [])) :
    remove_op c (FsTree.node m) = (FsTree.node (hmap_remove m c), 0) := by
  simp [remove_op, h, hmap_size]

/-- C9: a create of a previously absent leaf path (its parent exists,
the path itself does not) followed by a remove of the same path returns
the tree to its initial state, both calls returning 0. -/
theorem c9_create_remove_roundtrip (tr : FsTree) (p : String)
    (comps : List String) (hp : parse_path p = some comps)
    (habsent : findNode tr comps = none)
    (hparent : (findNode tr comps.dropLast).isSome) :
    (tree_create tr p).2 = 0 ∧
    (tree_remove (tree_create tr p).1 p).2 = 0 ∧
    (tree_remove (tree_create tr p).1 p).1 = tr := by
  have hcne : comps ≠ [] := by
    intro he
    subst he
    simp at habsent
  have hlast : comps.getLast? = some (comps.getLast hcne) :=
    List.getLast?_eq_getLast comps hcne
  have hsplit : comps.dropLast ++ [comps.getLast hcne] = comps :=
    List.dropLast_append_getLast hcne
  obtain ⟨pnd, hpnd⟩ := Option.isSome_iff_exists.mp hparent
  obtain ⟨pm⟩ := pnd
  have hget : hmap_get pm (comps.getLast hcne) = none := by
    rw [← hsplit, findNode_parent_child, hpnd] at habsent
    simpa using habsent
  have hcr : tree_create tr p =
      descendModify tr comps.dropLast (create_op (comps.getLast hcne)) := by
    simp only [tree_create, hp, hlast]
  have hrm : ∀ u : FsTree, tree_remove u p =
      descendModify u comps.dropLast (remove_op (comps.getLast hcne)) := by
    intro u
    simp only [tree_remove, hp, hlast]
  have hcreate2 : (tree_create tr p).2 = 0 := by
    rw [hcr, descendModify_snd tr comps.dropLast (FsTree.node pm) _ hpnd,
      create_op_absent hget]
  refine ⟨hcreate2, ?_, ?_⟩
  · have hself := descendModify_findNode_self tr comps.dropLast
      (FsTree.node pm) (create_op (comps.getLast hcne)) hpnd
    rw [create_op_absent hget] at hself
    rw [hrm, hcr, descendModify_snd _ comps.dropLast _ _ hself,
      remove_op_empty (by simpa using hmap_get_insert_self pm (comps.getLast hcne) (FsTree.node []))]
  · rw [hrm, hcr, descendModify_descendModify comps.dropLast tr
      (FsTree.node pm) _ _ hpnd]
    refine descendModify_fst_id tr comps.dropLast (FsTree.node pm) _ hpnd ?_
    simp only [create_op_absent hget]
    rw [remove_op_empty (by simpa using hmap_get_insert_self pm (comps.getLast hcne) (FsTree.node []))]
    simp [hmap_remove_insert pm _ _ hget]

/-- Witness for C9: creating and removing /b/ in a tree holding only /a/
returns the original tree. -/
theorem c9_create_remove_roundtrip_witness :
    (tree_create (FsTree.node [("a", FsTree.node [])]) "/b/").2 = 0 ∧
    (tree_remove (tree_create (FsTree.node [("a", FsTree.node [])]) "/b/").1
      "/b/").2 = 0 ∧
    (tree_remove (tree_create (FsTree.node [("a", FsTree.node [])]) "/b/").1
      "/b/").1 = FsTree.node [("a", FsTree.node [])] :=
  c9_create_remove_roundtrip (FsTree.node [("a", FsTree.node [])]) "/b/"
    ["b"] (by decide) rfl rfl

/-! ## Claim C4 -/

/-- C4: in a sequential execution on a valid non-root path p with parent
path pp and last component c, right after create(p) returns 0 a list of
pp succeeds and its key set contains c, and right after remove(p)
returns 0 a list of pp succeeds and its key set does not contain c. -/
theorem c4_list_parent_after_create_remove (tr : FsTree) (p pp c : String)
    (comps : List String) (hp : parse_path p = some comps)
    (hpp : make_path_to_parent p = some (pp, c)) :
    ((tree_create tr p).2 = 0 →
      ∃ m : List (String × FsTree),
        tree_list (tree_create tr p).1 pp = some (make_map_contents_string m) ∧
        (hmap_get m c).isSome) ∧
    ((tree_remove tr p).2 = 0 →
      ∃ m : List (String × FsTree),
        tree_list (tree_remove tr p).1 pp = some (make_map_contents_string m) ∧
        hmap_get m c = none) := by
  have hcne : comps ≠ [] := by
    intro he
    subst he
    simp [make_path_to_parent, hp] at hpp
  have hlast : comps.getLast? = some (comps.getLast hcne) :=
    List.getLast?_eq_getLast comps hcne
  have h3 : (render_path comps.dropLast, comps.getLast hcne) = (pp, c) := by
    apply Option.some.inj
    rw [← hpp]
    simp only [make_path_to_parent, hp, hlast]
  rw [Prod.ext_iff] at h3
  have hppeq : pp = render_path comps.dropLast := h3.1.symm
  have hceq : c = comps.getLast hcne := h3.2.symm
  have hppparse : parse_path pp = some comps.dropLast := by
    rw [hppeq]
    refine parse_render comps.dropLast ?_
    intro n hn
    exact parse_path_components p comps hp n
      ((List.dropLast_sublist comps).subset hn)
  constructor
  · intro h0
    have hcr : tree_create tr p =
        descendModify tr comps.dropLast (create_op (comps.getLast hcne)) := by
      simp only [tree_create, hp, hlast]
    rw [hcr] at h0 ⊢
    cases hpnd : findNode tr comps.dropLast with
    | none =>
      rw [descendModify_snd_of_findNode_none tr comps.dropLast _ hpnd] at h0
      exact absurd h0 enoent_ne_zero
    | some pnd =>
      obtain ⟨pm⟩ := pnd
      rw [descendModify_snd tr comps.dropLast _ _ hpnd] at h0
      cases hget : hmap_get pm (comps.getLast hcne) with
      | some v =>
        rw [create_op_present hget] at h0
        exact absurd h0 eexist_ne_zero
      | none =>
        have hself := descendModify_findNode_self tr comps.dropLast
          (FsTree.node pm) (create_op (comps.getLast hcne)) hpnd
        rw [create_op_absent hget] at hself
        refine ⟨hmap_insert pm (comps.getLast hcne) (FsTree.node []), ?_, ?_⟩
        · simp [tree_list, hppparse, hself]
        · rw [hceq]
          simp [hmap_get_insert_self]
  · intro h0
    have hrm : tree_remove tr p =
        descendModify tr comps.dropLast (remove_op (comps.getLast hcne)) := by
      simp only [tree_remove, hp, hlast]
    rw [hrm] at h0 ⊢
    cases hpnd : findNode tr comps.dropLast with
    | none =>
      rw [descendModify_snd_of_findNode_none tr comps.dropLast _ hpnd] at h0
      exact absurd h0 enoent_ne_zero
    | some pnd =>
      obtain ⟨pm⟩ := pnd
      rw [descendModify_snd tr comps.dropLast _ _ hpnd] at h0
      cases hget : hmap_get pm (comps.getLast hcne) with
      | none =>
        rw [remove_op_absent hget] at h0
        exact absurd h0 enoent_ne_zero
      | some son =>
        obtain ⟨sm⟩ := son
        by_cases hsm : sm = []
        · subst hsm
          have hself := descendModify_findNode_self tr comps.dropLast
            (FsTree.node pm) (remove_op (comps.getLast hcne)) hpnd
          rw [remove_op_empty hget] at hself
          refine ⟨hmap_remove pm (comps.getLast hcne), ?_, ?_⟩
          · simp [tree_list, hppparse, hself]
          · rw [hceq]
            simp [hmap_get_remove_self]
        · rw [remove_op] at h0
          simp only [FsTree.children_node, hget] at h0
          rw [if_pos (by simpa [hmap_size] using hsm)] at h0
          exact absurd h0 enotempty_ne_zero

/-- Witness for C4 on a concrete tree: create and remove /a/b/ with
parent /a/. -/
theorem c4_list_parent_after_create_remove_witness :
    (∃ m : List (String × FsTree), tree_list
        (tree_create (FsTree.node [("a", FsTree.node [])]) "/a/b/").1 "/a/" =
        some (make_map_contents_string m) ∧ (hmap_get m "b").isSome) ∧
    (∃ m : List (String × FsTree), tree_list
        (tree_remove (FsTree.node [("a", FsTree.node [("b", FsTree.node [])])])
          "/a/b/").1 "/a/" =
        some (make_map_contents_string m) ∧ hmap_get m "b" = none) :=
  ⟨(c4_list_parent_after_create_remove (FsTree.node [("a", FsTree.node [])])
      "/a/b/" "/a/" "b" ["a", "b"] (by decide) (by decide)).1 rfl,
    (c4_list_parent_after_create_remove
      (FsTree.node [("a", FsTree.node [("b", FsTree.node [])])])
      "/a/b/" "/a/" "b" ["a", "b"] (by decide) (by decide)).2 rfl⟩

/-! ## Claim C3 -/

lemma render_rest_append (A B : List String) :
    render_rest (A ++ B) = render_rest A ++ render_rest B := by
  induction A with
  | nil => simp [render_rest]
  | cons n A' ih => simp [render_rest, ih]

/-- A strict component-prefix relation between two parsed paths is the
strict string-prefix condition that tree_move checks with strncmp. -/
lemma comps_str_pref {src tgt : String} {scomps tcomps : List String}
    (hs : parse_path src = some scomps) (ht : parse_path tgt = some tcomps)
    (X : List String) (hX : scomps ++ X = tcomps) (hXne : X ≠ []) :
    src.length < tgt.length ∧ tgt.data.take src.length = src.data := by
  cases X with
  | nil => exact absurd rfl hXne
  | cons x X' =>
    have hxvalid : validName x :=
      parse_path_components tgt tcomps ht x
        (by rw [← hX]; exact List.mem_append_right _ (by simp))
    have hsdata : src.data = '/' :: render_rest scomps := by
      rw [parse_path_render hs]
      rfl
    have htdata : tgt.data =
        '/' :: (render_rest scomps ++ render_rest (x :: X')) := by
      rw [parse_path_render ht, ← hX]
      simp [render_path, render_rest_append]
    have hslen : src.length = 1 + (render_rest scomps).length := by
      have : src.length = src.data.length := rfl
      rw [this, hsdata]
      simp
      omega
    have hxlen : 0 < (render_rest (x :: X')).length := by
      simp only [render_rest, List.length_append]
      have := hxvalid.1
      cases hx : x.data with
      | nil => exact absurd hx this
      | cons c cs => simp [hx]
    constructor
    · have : tgt.length = tgt.data.length := rfl
      rw [this, htdata, hslen]
      simp
      omega
    · rw [htdata, hsdata, hslen]
      have : 1 + (render_rest scomps).length =
          (render_rest scomps).length + 1 := by omega
      rw [this]
      rw [List.take_succ_cons]
      rw [List.take_left]

/-- The two descents of the shared loop of tree_move read the same
components: the first commonLen components of the two lists agree. -/
lemma commonLen_take_eq (P Q : List String) :
    List.take (commonLen P Q) P = List.take (commonLen P Q) Q := by
  induction P generalizing Q with
  | nil => simp [commonLen]
  | cons x xs ih =>
    cases Q with
    | nil => simp [commonLen]
    | cons y ys =>
      by_cases h : x = y
      · subst h
        simp [commonLen, ih]
      · simp [commonLen, h]

/-- Any two component lists are equal, one extends the other, or they
diverge after a common prefix. -/
lemma list_split_cases (S T : List String) :
    S = T ∨ (∃ R, T = S ++ R ∧ R ≠ []) ∨ (∃ R, S = T ++ R ∧ R ≠ []) ∨
    (∃ C a b S2 T2, a ≠ b ∧ S = C ++ a :: S2 ∧ T = C ++ b :: T2) := by
  induction S generalizing T with
  | nil =>
    cases T with
    | nil => exact Or.inl rfl
    | cons t T' => exact Or.inr (Or.inl ⟨t :: T', rfl, by simp⟩)
  | cons a S' ih =>
    cases T with
    | nil => exact Or.inr (Or.inr (Or.inl ⟨a :: S', rfl, by simp⟩))
    | cons b T' =>
      by_cases hab : a = b
      · subst hab
        rcases ih T' with h | ⟨R, hR, hRne⟩ | ⟨R, hR, hRne⟩ |
          ⟨C, x, y, S2, T2, hxy, hS, hT⟩
        · exact Or.inl (by rw [h])
        · exact Or.inr (Or.inl ⟨R, by rw [List.cons_append, ← hR], hRne⟩)
        · exact Or.inr (Or.inr (Or.inl ⟨R, by rw [List.cons_append, ← hR],
            hRne⟩))
        · exact Or.inr (Or.inr (Or.inr
            ⟨a :: C, x, y, S2, T2, hxy, by rw [hS, List.cons_append],
              by rw [hT, List.cons_append]⟩))
      · exact Or.inr (Or.inr (Or.inr ⟨[], a, b, S', T', hab, rfl, rfl⟩))

/-- C3: when tree_move returns 0, the subtree previously rooted at the
source path stands, unchanged, at the target path: the final source
component has been removed from the map of the source parent and the
very same node inserted into the map of the target parent under the
final target component. -/
theorem c3_move_splices_subtree (tr : FsTree) (src tgt : String)
    (scomps tcomps : List String)
    (hs : parse_path src = some scomps) (ht : parse_path tgt = some tcomps)
    (h0 : (tree_move tr src tgt).2 = 0) :
    ∃ (S : List String) (s : String) (T : List String) (t : String)
      (moved : FsTree),
      scomps = S ++ [s] ∧ tcomps = T ++ [t] ∧
      findNode tr scomps = some moved ∧
      findNode (tree_move tr src tgt).1 tcomps = some moved ∧
      (∃ mT, findNode (tree_move tr src tgt).1 T = some (FsTree.node mT) ∧
        hmap_get mT t = some moved) ∧
      (∃ mS, findNode (tree_move tr src tgt).1 S = some (FsTree.node mS) ∧
        hmap_get mS s = none) := by
  have hsr : src ≠ "/" := by
    intro he
    subst he
    have hmv : tree_move tr "/" tgt = (tr, EBUSY) := by
      simp only [tree_move, hs, ht]
      simp
    rw [hmv] at h0
    dsimp only at h0
    exact absurd h0 (by decide)
  have htr : tgt ≠ "/" := by
    intro he
    subst he
    have hmv : tree_move tr src "/" = (tr, EEXIST) := by
      simp only [tree_move, hs, ht]
      simp [hsr]
    rw [hmv] at h0
    dsimp only at h0
    exact absurd h0 (by decide)
  have hnp : ¬ (src.length < tgt.length ∧
      tgt.data.take src.length = src.data) := by
    intro hcon
    have hmv : tree_move tr src tgt = (tr, -1) := by
      simp only [tree_move, hs, ht]
      rw [if_neg hsr, if_neg htr, if_pos hcon]
    rw [hmv] at h0
    dsimp only at h0
    exact absurd h0 (by decide)
  have hsne : scomps ≠ [] := comps_ne_nil hs hsr
  have htne : tcomps ≠ [] := comps_ne_nil ht htr
  have hslast : scomps.getLast? = some (scomps.getLast hsne) :=
    List.getLast?_eq_getLast scomps hsne
  have htlast : tcomps.getLast? = some (tcomps.getLast htne) :=
    List.getLast?_eq_getLast tcomps htne
  have hssplit : scomps.dropLast ++ [scomps.getLast hsne] = scomps :=
    List.dropLast_append_getLast hsne
  have htsplit : tcomps.dropLast ++ [tcomps.getLast htne] = tcomps :=
    List.dropLast_append_getLast htne
  simp only [tree_move, hs, ht, if_neg hsr, if_neg htr, if_neg hnp,
    hslast, htlast] at h0 ⊢
  cases hlca : findNode tr
      (List.take (commonLen scomps.dropLast tcomps.dropLast)
        scomps.dropLast) with
  | none => rw [hlca] at h0; simp [ENOENT] at h0
  | some lca =>
  rw [hlca] at h0
  dsimp only at h0 ⊢
  cases htt : findNode lca
      (List.drop (commonLen scomps.dropLast tcomps.dropLast)
        tcomps.dropLast) with
  | none => rw [htt] at h0; simp [ENOENT] at h0
  | some target_tree =>
  rw [htt] at h0
  dsimp only at h0 ⊢
  cases hg1 : hmap_get target_tree.children (tcomps.getLast htne) with
  | some v => rw [hg1] at h0; simp [EEXIST] at h0
  | none =>
  rw [hg1] at h0
  dsimp only at h0 ⊢
  cases hss : findNode lca
      (List.drop (commonLen scomps.dropLast tcomps.dropLast)
        scomps.dropLast) with
  | none => rw [hss] at h0; simp [ENOENT] at h0
  | some source_tree =>
  rw [hss] at h0
  dsimp only at h0 ⊢
  cases hg2 : hmap_get source_tree.children (scomps.getLast hsne) with
  | none => rw [hg2] at h0; simp [ENOENT] at h0
  | some moved =>
  dsimp only at h0 ⊢
  -- the descent facts in the unmodified tree
  have hfS : findNode tr scomps.dropLast = some source_tree := by
    rw [← List.take_append_drop (commonLen scomps.dropLast tcomps.dropLast)
      scomps.dropLast, findNode_append, hlca]
    simpa using hss
  have hfT : findNode tr tcomps.dropLast = some target_tree := by
    have hdecomp : tcomps.dropLast =
        List.take (commonLen scomps.dropLast tcomps.dropLast)
          scomps.dropLast ++
        List.drop (commonLen scomps.dropLast tcomps.dropLast)
          tcomps.dropLast := by
      rw [commonLen_take_eq, List.take_append_drop]
    rw [hdecomp, findNode_append, hlca]
    simpa using htt
  obtain ⟨ms⟩ := source_tree
  obtain ⟨mt⟩ := target_tree
  simp only [FsTree.children_node] at hg1 hg2
  have hfsrc : findNode tr scomps = some moved := by
    rw [← hssplit, findNode_parent_child, hfS]
    simpa using hg2
  refine ⟨scomps.dropLast, scomps.getLast hsne, tcomps.dropLast,
    tcomps.getLast htne, moved, hssplit.symm, htsplit.symm, hfsrc, ?_⟩
  -- the splice facts in the modified tree
  have hfS1 : findNode
      (descendModify tr scomps.dropLast
        (splice_remove_op (scomps.getLast hsne))).1 scomps.dropLast =
      some (FsTree.node (hmap_remove ms (scomps.getLast hsne))) := by
    have := descendModify_findNode_self tr scomps.dropLast (FsTree.node ms)
      (splice_remove_op (scomps.getLast hsne)) hfS
    simpa [splice_remove_op] using this
  suffices hBC :
      (∃ mT, findNode
          ((descendModify
            (descendModify tr scomps.dropLast
              (splice_remove_op (scomps.getLast hsne))).1
            tcomps.dropLast
            (splice_insert_op (tcomps.getLast htne) moved)).1)
          tcomps.dropLast = some (FsTree.node mT) ∧
        hmap_get mT (tcomps.getLast htne) = some moved) ∧
      (∃ mS, findNode
          ((descendModify
            (descendModify tr scomps.dropLast
              (splice_remove_op (scomps.getLast hsne))).1
            tcomps.dropLast
            (splice_insert_op (tcomps.getLast htne) moved)).1)
          scomps.dropLast = some (FsTree.node mS) ∧
        hmap_get mS (scomps.getLast hsne) = none) by
    obtain ⟨⟨mT, hmT, hmTget⟩, hC⟩ := hBC
    refine ⟨?_, ⟨mT, hmT, hmTget⟩, hC⟩
    have hstep := findNode_parent_child
      ((descendModify
        (descendModify tr scomps.dropLast
          (splice_remove_op (scomps.getLast hsne))).1
        tcomps.dropLast
        (splice_insert_op (tcomps.getLast htne) moved)).1)
      tcomps.dropLast (tcomps.getLast htne)
    rw [htsplit] at hstep
    rw [hstep, hmT]
    simpa using hmTget
  rcases list_split_cases scomps.dropLast tcomps.dropLast with heq |
    ⟨R, hR, hRne⟩ | ⟨R, hR, hRne⟩ | ⟨C, a, b, S2, T2, hab, hSd, hTd⟩
  · -- same parent
    have hmseq : ms = mt := by
      rw [heq] at hfS
      rw [hfS] at hfT
      exact (FsTree.node.injEq _ _).mp (Option.some.inj hfT)
    subst hmseq
    have hst : scomps.getLast hsne ≠ tcomps.getLast htne := by
      intro he
      rw [he] at hg2
      rw [hg2] at hg1
      exact Option.noConfusion hg1
    have hfT1 : findNode
        (descendModify tr scomps.dropLast
          (splice_remove_op (scomps.getLast hsne))).1 tcomps.dropLast =
        some (FsTree.node (hmap_remove ms (scomps.getLast hsne))) := by
      rw [← heq]
      exact hfS1
    have hfT2 := descendModify_findNode_self _ tcomps.dropLast _
      (splice_insert_op (tcomps.getLast htne) moved) hfT1
    simp only [splice_insert_op, FsTree.children_node] at hfT2
    constructor
    · exact ⟨_, hfT2, hmap_get_insert_self _ _ _⟩
    · refine ⟨hmap_insert (hmap_remove ms (scomps.getLast hsne))
        (tcomps.getLast htne) moved, ?_, ?_⟩
      · conv_lhs =>
          arg 2
          rw [heq]
        exact hfT2
      · rw [hmap_get_insert_ne _ _ _ _ hst]
        exact hmap_get_remove_self _ _
  · -- source parent is an ancestor of the target parent
    cases R with
    | nil => exact absurd rfl hRne
    | cons u R' =>
    have hsu : scomps.getLast hsne ≠ u := by
      intro he
      refine hnp (comps_str_pref hs ht (R' ++ [tcomps.getLast htne]) ?_
        (by simp))
      rw [← hssplit, he]
      conv_rhs => rw [← htsplit, hR]
      simp
    -- the step from the source parent toward the target parent
    have hstep : ∃ chU, hmap_get ms u = some chU ∧
        findNode chU R' = some (FsTree.node mt) := by
      have h1 : findNode tr tcomps.dropLast = some (FsTree.node mt) := hfT
      rw [hR, findNode_append, hfS] at h1
      simp only [Option.some_bind] at h1
      rw [findNode_cons] at h1
      simp only [FsTree.children_node] at h1
      cases hgu : hmap_get ms u with
      | none => rw [hgu] at h1; simp at h1
      | some chU =>
        rw [hgu] at h1
        simp only [Option.some_bind] at h1
        exact ⟨chU, rfl, h1⟩
    obtain ⟨chU, hgu, hchU⟩ := hstep
    have hfT1 : findNode
        (descendModify tr scomps.dropLast
          (splice_remove_op (scomps.getLast hsne))).1 tcomps.dropLast =
        some (FsTree.node mt) := by
      rw [hR, descendModify_findNode_append tr scomps.dropLast
        (FsTree.node ms) _ hfS (u :: R')]
      simp only [splice_remove_op, FsTree.children_node]
      rw [findNode_cons]
      simp only [FsTree.children_node]
      rw [hmap_get_remove_ne _ _ _ (fun he => hsu he.symm), hgu]
      simpa using hchU
    have hfT2 := descendModify_findNode_self _ tcomps.dropLast _
      (splice_insert_op (tcomps.getLast htne) moved) hfT1
    simp only [splice_insert_op, FsTree.children_node] at hfT2
    constructor
    · exact ⟨_, hfT2, hmap_get_insert_self _ _ _⟩
    · -- the source parent lies strictly above the modified target parent
      have habove := descendModify_findNode_above scomps.dropLast u R'
        (descendModify tr scomps.dropLast
          (splice_remove_op (scomps.getLast hsne))).1
        (splice_insert_op (tcomps.getLast htne) moved)
        (scomps.getLast hsne) hsu _ hfS1
      rw [← hR] at habove
      obtain ⟨m2, hm2, hm2get⟩ := habove
      refine ⟨m2, hm2, ?_⟩
      rw [hm2get]
      exact hmap_get_remove_self _ _
  · -- target parent is an ancestor of the source parent
    cases R with
    | nil => exact absurd rfl hRne
    | cons u R' =>
    have hstep : ∃ chU, hmap_get mt u = some chU ∧
        findNode chU R' = some (FsTree.node ms) := by
      have h1 : findNode tr scomps.dropLast = some (FsTree.node ms) := hfS
      rw [hR, findNode_append, hfT] at h1
      simp only [Option.some_bind] at h1
      rw [findNode_cons] at h1
      simp only [FsTree.children_node] at h1
      cases hgu : hmap_get mt u with
      | none => rw [hgu] at h1; simp at h1
      | some chU =>
        rw [hgu] at h1
        simp only [Option.some_bind] at h1
        exact ⟨chU, rfl, h1⟩
    obtain ⟨chU, hgu, hchU⟩ := hstep
    have hut : tcomps.getLast htne ≠ u := by
      intro he
      rw [← he] at hgu
      rw [hgu] at hg1
      exact Option.noConfusion hg1
    -- the target parent seen after the removal below it
    have habove := descendModify_findNode_above tcomps.dropLast u R'
      tr (splice_remove_op (scomps.getLast hsne)) (tcomps.getLast htne)
      hut mt hfT
    rw [← hR] at habove
    obtain ⟨m2, hm2, hm2get⟩ := habove
    rw [hg1] at hm2get
    have hfT2 := descendModify_findNode_self _ tcomps.dropLast _
      (splice_insert_op (tcomps.getLast htne) moved) hm2
    simp only [splice_insert_op, FsTree.children_node] at hfT2
    constructor
    · exact ⟨_, hfT2, hmap_get_insert_self _ _ _⟩
    · -- the source parent under the re-inserted edge
      have hSpath : findNode
          (descendModify tr scomps.dropLast
            (splice_remove_op (scomps.getLast hsne))).1
          scomps.dropLast =
          some (FsTree.node (hmap_remove ms (scomps.getLast hsne))) := hfS1
      conv at hSpath =>
        lhs
        arg 2
        rw [hR]
      rw [findNode_append, hm2] at hSpath
      simp only [Option.some_bind] at hSpath
      rw [findNode_cons] at hSpath
      simp only [FsTree.children_node] at hSpath
      refine ⟨hmap_remove ms (scomps.getLast hsne), ?_,
        hmap_get_remove_self _ _⟩
      conv_lhs =>
        arg 2
        rw [hR]
      rw [descendModify_findNode_append _ tcomps.dropLast
        (FsTree.node m2) _ hm2 (u :: R')]
      simp only [splice_insert_op, FsTree.children_node]
      rw [findNode_cons]
      simp only [FsTree.children_node]
      rw [hmap_get_insert_ne _ _ _ _ (fun he => hut he.symm)]
      exact hSpath
  · -- diverging parents
    have hfT1 : findNode
        (descendModify tr scomps.dropLast
          (splice_remove_op (scomps.getLast hsne))).1 tcomps.dropLast =
        some (FsTree.node mt) := by
      rw [hSd, hTd,
        descendModify_findNode_diverge C a b S2 T2 tr _ hab,
        ← hTd]
      exact hfT
    have hfT2 := descendModify_findNode_self _ tcomps.dropLast _
      (splice_insert_op (tcomps.getLast htne) moved) hfT1
    simp only [splice_insert_op, FsTree.children_node] at hfT2
    constructor
    · exact ⟨_, hfT2, hmap_get_insert_self _ _ _⟩
    · refine ⟨hmap_remove ms (scomps.getLast hsne), ?_,
        hmap_get_remove_self _ _⟩
      rw [hSd, hTd, descendModify_findNode_diverge C b a T2 S2 _ _
        (fun he => hab he.symm), ← hSd]
      exact hfS1

/-- Witness for C3: moving /x/ into /y/x/ places the subtree of /x/
under /y/. -/
theorem c3_move_splices_subtree_witness :
    ∃ (S : List String) (s : String) (T : List String) (t : String)
      (moved : FsTree),
      ["x"] = S ++ [s] ∧ ["y", "x"] = T ++ [t] ∧
      findNode (FsTree.node [("x", FsTree.node [("z", FsTree.node [])]),
        ("y", FsTree.node [])]) ["x"] = some moved ∧
      findNode (tree_move (FsTree.node [("x", FsTree.node [("z", FsTree.node [])]),
        ("y", FsTree.node [])]) "/x/" "/y/x/").1 ["y", "x"] = some moved ∧
      (∃ mT, findNode (tree_move (FsTree.node [("x", FsTree.node [("z", FsTree.node [])]),
        ("y", FsTree.node [])]) "/x/" "/y/x/").1 T = some (FsTree.node mT) ∧
        hmap_get mT t = some moved) ∧
      (∃ mS, findNode (tree_move (FsTree.node [("x", FsTree.node [("z", FsTree.node [])]),
        ("y", FsTree.node [])]) "/x/" "/y/x/").1 S = some (FsTree.node mS) ∧
        hmap_get mS s = none) :=
  c3_move_splices_subtree
    (FsTree.node [("x", FsTree.node [("z", FsTree.node [])]),
      ("y", FsTree.node [])])
    "/x/" "/y/x/" ["x"] ["y", "x"] (by decide) (by decide) rfl

/-! ## Instrumented descent: lock-event traces

The definitions below re-run the descent routines and record one event
per reader or writer entry or exit protocol call, identifying a node by
its path from the root (two distinct nodes of a tree have distinct
paths, so path equality is pointer equality of the source).  Error codes
and map lookups duplicate the functional model above. -/

inductive LockEv where
  | rEnter (p : List String)
  | rExit (p : List String)
  | wEnter (p : List String)
  | wExit (p : List String)
deriving DecidableEq, Repr

/-- The descent loop shared by find_node (lines 191-207) and the
shared-prefix loop of tree_move (lines 443-462): enter the child as a
writer when the budget counter would reach zero (the code decrements the
size_t counter and tests for zero, equivalent to a pre-test for one),
otherwise as a reader; release the previous node as a reader, also when
the child is missing.  Returns the error, the events, and the node and
path reached. -/
def descend_trace (t : FsTree) (cur : List String) (comps : List String)
    (tg : Nat) : Int × List LockEv × FsTree × List String :=
  match comps with
  | [] => (0, [], t, cur)
  | c :: rest =>
    match hmap_get t.children c with
    | none => (ENOENT, [LockEv.rExit cur], t, cur)
    | some child =>
      let enter := if tg = 1 then LockEv.wEnter (cur ++ [c])
        else LockEv.rEnter (cur ++ [c])
      let r := descend_trace child (cur ++ [c]) rest (tg - 1)
      (r.1, enter :: LockEv.rExit cur :: r.2.1, r.2.2)

/-- find_node (lines 185-209) with its initial entry on the start node
(writer when the budget is zero). -/
def find_node_trace (t : FsTree) (comps : List String) (tg : Nat) :
    Int × List LockEv :=
  let e0 := if tg = 0 then LockEv.wEnter ([] : List String)
    else LockEv.rEnter ([] : List String)
  let r := descend_trace t [] comps tg
  (r.1, e0 :: r.2.1)

/-- move_dfs (lines 314-341): like the descent loop, but the first held
node is the LCA, which is neither entered nor released here (the in_lca
flag suppresses its reader exit). -/
def move_dfs_trace (t : FsTree) (cur : List String) (comps : List String)
    (tg : Nat) (in_lca : Bool) : Int × List LockEv × FsTree × List String :=
  match comps with
  | [] => (0, [], t, cur)
  | c :: rest =>
    match hmap_get t.children c with
    | none => (ENOENT, if in_lca then [] else [LockEv.rExit cur], t, cur)
    | some child =>
      let enter := if tg = 1 then LockEv.wEnter (cur ++ [c])
        else LockEv.rEnter (cur ++ [c])
      let ex : List LockEv := if in_lca then [] else [LockEv.rExit cur]
      let r := move_dfs_trace child (cur ++ [c]) rest (tg - 1) false
      (r.1, (enter :: ex) ++ r.2.1, r.2.2)

/-- source_dfs (lines 345-379): descend from the LCA to the source
parent, then look up the source child; on each error release the
writer-held nodes (source parent, target parent, LCA) guarded by the
pointer comparisons of the code; on success release the LCA when
distinct from both parents, splice, and release both parents. -/
def source_dfs_trace (lca : FsTree) (lcaPath : List String)
    (targetPath : List String) (srcRest : List String)
    (source_child : String) (tg : Nat) : Int × List LockEv :=
  let r := move_dfs_trace lca lcaPath srcRest tg true
  if r.1 ≠ 0 then
    (r.1, r.2.1 ++
      (if lcaPath ≠ targetPath then [LockEv.wExit targetPath] else []) ++
      [LockEv.wExit lcaPath])
  else
    let source_tree := r.2.2.1
    let sourcePath := r.2.2.2
    match hmap_get source_tree.children source_child with
    | none =>
      (ENOENT, r.2.1 ++
        (if sourcePath ≠ lcaPath then [LockEv.wExit sourcePath] else []) ++
        (if targetPath ≠ lcaPath then [LockEv.wExit targetPath] else []) ++
        [LockEv.wExit lcaPath])
    | some _ =>
      (0, r.2.1 ++
        (if lcaPath ≠ sourcePath ∧ lcaPath ≠ targetPath then
          [LockEv.wExit lcaPath] else []) ++
        (if sourcePath ≠ targetPath then [LockEv.wExit sourcePath] else []) ++
        [LockEv.wExit targetPath])

/-- target_dfs (lines 383-406): descend from the LCA to the target
parent; on error release the LCA; when the target name exists release
the target parent (if distinct) and the LCA with EEXIST; otherwise
continue with source_dfs. -/
def target_dfs_trace (lca : FsTree) (lcaPath : List String)
    (tgtRest srcRest : List String) (target_child source_child : String)
    (tgTgt tgSrc : Nat) : Int × List LockEv :=
  let r := move_dfs_trace lca lcaPath tgtRest tgTgt true
  if r.1 ≠ 0 then (r.1, r.2.1 ++ [LockEv.wExit lcaPath])
  else
    let target_tree := r.2.2.1
    let targetPath := r.2.2.2
    match hmap_get target_tree.children target_child with
    | some _ =>
      (EEXIST, r.2.1 ++
        (if targetPath ≠ lcaPath then [LockEv.wExit targetPath] else []) ++
        [LockEv.wExit lcaPath])
    | none =>
      let r2 := source_dfs_trace lca lcaPath targetPath srcRest
        source_child tgSrc
      (r2.1, r.2.1 ++ r2.2)

/-- tree_move (lines 410-476) with lock events: validation and root and
prefix checks as in the functional model, then the shared-prefix descent
(writer entry on the root when the shared prefix is empty), then
target_dfs. -/
def tree_move_trace (tr : FsTree) (source target : String) :
    Int × List LockEv :=
  match parse_path source, parse_path target with
  | none, _ => (EINVAL, [])
  | _, none => (EINVAL, [])
  | some scomps, some tcomps =>
    if source = "/" then (EBUSY, [])
    else if target = "/" then (EEXIST, [])
    else if source.length < target.length ∧
        target.data.take source.length = source.data then (-1, [])
    else
      match scomps.getLast?, tcomps.getLast? with
      | some s, some t =>
        let S := scomps.dropLast
        let T := tcomps.dropLast
        let common := commonLen S T
        let e0 := if common = 0 then LockEv.wEnter ([] : List String)
          else LockEv.rEnter ([] : List String)
        let r := descend_trace tr [] (S.take common) common
        if r.1 ≠ 0 then (r.1, e0 :: r.2.1)
        else
          let lca := r.2.2.1
          let lcaPath := r.2.2.2
          let r2 := target_dfs_trace lca lcaPath (T.drop common)
            (S.drop common) t s (T.length - common) (S.length - common)
          (r2.1, e0 :: (r.2.1 ++ r2.2))
      -- unreachable: a parsed path other than the root has a last component
      | _, _ => (EINVAL, [])

/-- Occurrence count of one event in a trace. -/
def countEv : List LockEv → LockEv → Nat
  | [], _ => 0
  | e :: rest, x => (if e = x then 1 else 0) + countEv rest x

/-- A trace is balanced when, for every node, reader entries match
reader exits and writer entries match writer exits. -/
def balancedTrace (evs : List LockEv) : Prop :=
  ∀ q : List String,
    countEv evs (LockEv.rEnter q) = countEv evs (LockEv.rExit q) ∧
    countEv evs (LockEv.wEnter q) = countEv evs (LockEv.wExit q)

@[simp] lemma countEv_nil (x : LockEv) : countEv [] x = 0 := rfl

lemma countEv_cons (e : LockEv) (rest : List LockEv) (x : LockEv) :
    countEv (e :: rest) x = (if e = x then 1 else 0) + countEv rest x := rfl

lemma countEv_append (a b : List LockEv) (x : LockEv) :
    countEv (a ++ b) x = countEv a x + countEv b x := by
  induction a with
  | nil => simp
  | cons e rest ih =>
    simp only [List.cons_append, countEv_cons, ih]
    omega

lemma mdt_nil (t : FsTree) (cur : List String) (tg : Nat) (b : Bool) :
    move_dfs_trace t cur [] tg b = (0, [], t, cur) := rfl

lemma mdt_cons_none (m : List (String × FsTree)) (cur : List String)
    (c : String) (rest : List String) (tg : Nat) (b : Bool)
    (hget : hmap_get m c = none) :
    move_dfs_trace (FsTree.node m) cur (c :: rest) tg b =
      (ENOENT, if b = true then [] else [LockEv.rExit cur],
        FsTree.node m, cur) := by
  simp [move_dfs_trace, hget]

lemma mdt_cons_some (m : List (String × FsTree)) (cur : List String)
    (c : String) (ch : FsTree) (rest : List String) (tg : Nat) (b : Bool)
    (hget : hmap_get m c = some ch) :
    move_dfs_trace (FsTree.node m) cur (c :: rest) tg b =
      ((move_dfs_trace ch (cur ++ [c]) rest (tg - 1) false).1,
        ((if tg = 1 then LockEv.wEnter (cur ++ [c])
          else LockEv.rEnter (cur ++ [c])) ::
          (if b = true then [] else [LockEv.rExit cur])) ++
          (move_dfs_trace ch (cur ++ [c]) rest (tg - 1) false).2.1,
        (move_dfs_trace ch (cur ++ [c]) rest (tg - 1) false).2.2) := by
  simp [move_dfs_trace, hget]

/-- On success the node reached by move_dfs is at the concatenated
path. -/
lemma mdt_ok_path (comps : List String) :
    ∀ (t : FsTree) (cur : List String) (tg : Nat) (b : Bool),
    (move_dfs_trace t cur comps tg b).1 = 0 →
    (move_dfs_trace t cur comps tg b).2.2.2 = cur ++ comps := by
  induction comps with
  | nil =>
    intro t cur tg b _
    simp [mdt_nil]
  | cons c rest ih =>
    intro t cur tg b h
    cases t with
    | node m =>
      cases hget : hmap_get m c with
      | none =>
        rw [mdt_cons_none m cur c rest tg b hget] at h
        dsimp only at h
        exact absurd h (by decide)
      | some ch =>
        rw [mdt_cons_some m cur c ch rest tg b hget] at h ⊢
        dsimp only at h ⊢
        have := ih ch (cur ++ [c]) (tg - 1) false h
        simpa using this

/-- Count facts for a failing move_dfs descent with exact budget: reader
entries and exits balance except for the extra reader exit of the start
node when the start node is not the LCA, and no writer events occur. -/
lemma mdt_fail_counts (comps : List String) :
    ∀ (t : FsTree) (cur : List String) (b : Bool),
    (move_dfs_trace t cur comps comps.length b).1 ≠ 0 →
    ∀ q : List String,
      countEv (move_dfs_trace t cur comps comps.length b).2.1
        (LockEv.rExit q) =
      countEv (move_dfs_trace t cur comps comps.length b).2.1
        (LockEv.rEnter q) + (if b = false ∧ cur = q then 1 else 0) ∧
      countEv (move_dfs_trace t cur comps comps.length b).2.1
        (LockEv.wEnter q) = 0 ∧
      countEv (move_dfs_trace t cur comps comps.length b).2.1
        (LockEv.wExit q) = 0 := by
  induction comps with
  | nil =>
    intro t cur b h
    rw [mdt_nil] at h
    dsimp only at h
    exact absurd rfl h
  | cons c rest ih =>
    intro t cur b h q
    cases t with
    | node m =>
      cases hget : hmap_get m c with
      | none =>
        rw [mdt_cons_none m cur c rest _ b hget]
        dsimp only
        cases b <;> by_cases hq : cur = q <;>
          simp [countEv_cons, hq]
      | some ch =>
        rw [mdt_cons_some m cur c ch rest _ b hget] at h ⊢
        dsimp only at h ⊢
        have hrest : rest ≠ [] := by
          intro he
          subst he
          rw [mdt_nil] at h
          exact h rfl
        have hlen : (c :: rest).length - 1 = rest.length := by simp
        rw [hlen] at h ⊢
        have htg : ¬ ((c :: rest).length = 1) := by
          simp only [List.length_cons]
          intro he
          exact hrest (List.length_eq_zero.mp (by omega))
        rw [if_neg htg]
        obtain ⟨e1, e2, e3⟩ := ih ch (cur ++ [c]) false h q
        have hne : ¬ (cur = q ∧ cur ++ [c] = q) := by
          rintro ⟨rfl, hq2⟩
          have := congrArg List.length hq2
          simp at this
        by_cases hq : cur = q
        · subst hq
          have hq2 : ¬ cur ++ [c] = cur := fun h2 => hne ⟨rfl, h2⟩
          cases b <;>
            simp [countEv_append, countEv_cons, hq2, e1, e2, e3] <;> omega
        · by_cases hq2 : cur ++ [c] = q
          · subst hq2
            cases b <;>
              simp [countEv_append, countEv_cons, hq, e1, e2, e3] <;> omega
          · cases b <;>
              simp [countEv_append, countEv_cons, hq, hq2, e1, e2, e3] <;>
                omega

/-- Count facts for a successful move_dfs descent with exact budget:
reader events balance except the extra reader exit of a non-LCA start
node, one writer entry on the reached node when the path is non-empty,
and no writer exits. -/
lemma mdt_ok_counts (comps : List String) :
    ∀ (t : FsTree) (cur : List String) (b : Bool),
    (move_dfs_trace t cur comps comps.length b).1 = 0 →
    ∀ q : List String,
      countEv (move_dfs_trace t cur comps comps.length b).2.1
        (LockEv.rExit q) =
      countEv (move_dfs_trace t cur comps comps.length b).2.1
        (LockEv.rEnter q) +
        (if b = false ∧ comps ≠ [] ∧ cur = q then 1 else 0) ∧
      countEv (move_dfs_trace t cur comps comps.length b).2.1
        (LockEv.wEnter q) =
        (if comps ≠ [] ∧ cur ++ comps = q then 1 else 0) ∧
      countEv (move_dfs_trace t cur comps comps.length b).2.1
        (LockEv.wExit q) = 0 := by
  induction comps with
  | nil =>
    intro t cur b _ q
    simp [mdt_nil]
  | cons c rest ih =>
    intro t cur b h q
    cases t with
    | node m =>
      cases hget : hmap_get m c with
      | none =>
        rw [mdt_cons_none m cur c rest _ b hget] at h
        dsimp only at h
        exact absurd h (by decide)
      | some ch =>
        rw [mdt_cons_some m cur c ch rest _ b hget] at h ⊢
        dsimp only at h ⊢
        have hlen : (c :: rest).length - 1 = rest.length := by simp
        rw [hlen] at h ⊢
        obtain ⟨e1, e2, e3⟩ := ih ch (cur ++ [c]) false h q
        have hassoc : (cur ++ [c]) ++ rest = cur ++ (c :: rest) := by simp
        have hne : ¬ (cur = q ∧ cur ++ [c] = q) := by
          rintro ⟨rfl, hq2⟩
          have := congrArg List.length hq2
          simp at this
        by_cases hrest : rest = []
        · subst hrest
          have htg : (c :: ([] : List String)).length = 1 := by simp
          rw [if_pos htg]
          rw [mdt_nil] at e1 e2 e3 ⊢
          by_cases hq : cur = q
          · subst hq
            have hq2 : ¬ cur ++ [c] = cur := fun h2 => hne ⟨rfl, h2⟩
            cases b <;> simp [countEv_append, countEv_cons, hq2] <;> omega
          · by_cases hq2 : cur ++ [c] = q
            · subst hq2
              cases b <;> simp [countEv_append, countEv_cons, hq] <;> omega
            · cases b <;>
                simp [countEv_append, countEv_cons, hq, hq2] <;> omega
        · have htg : ¬ ((c :: rest).length = 1) := by
            simp only [List.length_cons]
            intro he
            exact hrest (List.length_eq_zero.mp (by omega))
          rw [if_neg htg]
          rw [hassoc] at e2
          have hne3 : ¬ (cur = q ∧ cur ++ (c :: rest) = q) := by
            rintro ⟨rfl, hq3⟩
            have := congrArg List.length hq3
            simp at this
          have hne23 : ¬ (cur ++ [c] = q ∧ cur ++ (c :: rest) = q) := by
            rintro ⟨h2, h3⟩
            have hl := congrArg List.length (h2.trans h3.symm)
            simp only [List.length_append, List.length_cons,
              List.length_nil] at hl
            exact hrest (List.length_eq_zero.mp (by omega))
          by_cases hq : cur = q
          · subst hq
            have hq2 : ¬ cur ++ [c] = cur := fun h2 => hne ⟨rfl, h2⟩
            have hq3 : ¬ cur ++ (c :: rest) = cur := fun h3 => hne3 ⟨rfl, h3⟩
            cases b <;>
              simp [countEv_append, countEv_cons, hq2, hq3, hrest,
                e1, e2, e3] <;> omega
          · by_cases hq2 : cur ++ [c] = q
            · subst hq2
              have hq3 : ¬ cur ++ (c :: rest) = cur ++ [c] :=
                fun h3 => hne23 ⟨rfl, h3⟩
              cases b <;>
                simp [countEv_append, countEv_cons, hq, hq3, hrest,
                  e1, e2, e3] <;> omega
            · by_cases hq3 : cur ++ (c :: rest) = q
              · subst hq3
                cases b <;>
                  simp [countEv_append, countEv_cons, hq, hq2, hrest,
                    e1, e2, e3] <;> omega
              · cases b <;>
                  simp [countEv_append, countEv_cons, hq, hq2, hq3, hrest,
                    e1, e2, e3] <;> omega

/-- descend_trace is move_dfs_trace with the in_lca flag off: both
release the previous node as a reader at every step and on the missing
child. -/
lemma dt_eq_mdt (comps : List String) :
    ∀ (t : FsTree) (cur : List String) (tg : Nat),
    descend_trace t cur comps tg = move_dfs_trace t cur comps tg false := by
  induction comps with
  | nil => intro t cur tg; rfl
  | cons c rest ih =>
    intro t cur tg
    cases t with
    | node m =>
      cases hget : hmap_get m c with
      | none => simp [descend_trace, move_dfs_trace, hget]
      | some ch => simp [descend_trace, move_dfs_trace, hget, ih]

/-- The only error code move_dfs can produce is ENOENT. -/
lemma mdt_err (comps : List String) :
    ∀ (t : FsTree) (cur : List String) (tg : Nat) (b : Bool),
    (move_dfs_trace t cur comps tg b).1 = 0 ∨
    (move_dfs_trace t cur comps tg b).1 = ENOENT := by
  induction comps with
  | nil => intro t cur tg b; exact Or.inl rfl
  | cons c rest ih =>
    intro t cur tg b
    cases t with
    | node m =>
      cases hget : hmap_get m c with
      | none =>
        rw [mdt_cons_none m cur c rest tg b hget]
        exact Or.inr rfl
      | some ch =>
        rw [mdt_cons_some m cur c ch rest tg b hget]
        exact ih ch (cur ++ [c]) (tg - 1) false

/-- A failing descent with the in_lca flag off ends with the reader
exit of the node reached when the missing child was detected. -/
lemma mdt_fail_last (comps : List String) :
    ∀ (t : FsTree) (cur : List String) (tg : Nat),
    (move_dfs_trace t cur comps tg false).1 ≠ 0 →
    ∃ evs0, (move_dfs_trace t cur comps tg false).2.1 =
      evs0 ++ [LockEv.rExit (move_dfs_trace t cur comps tg false).2.2.2] := by
  induction comps with
  | nil =>
    intro t cur tg h
    rw [mdt_nil] at h
    exact absurd rfl h
  | cons c rest ih =>
    intro t cur tg h
    cases t with
    | node m =>
      cases hget : hmap_get m c with
      | none =>
        rw [mdt_cons_none m cur c rest tg false hget]
        exact ⟨[], rfl⟩
      | some ch =>
        rw [mdt_cons_some m cur c ch rest tg false hget] at h ⊢
        dsimp only at h ⊢
        obtain ⟨evs0, he⟩ := ih ch (cur ++ [c]) (tg - 1) h
        refine ⟨((if tg = 1 then LockEv.wEnter (cur ++ [c])
          else LockEv.rEnter (cur ++ [c])) :: [LockEv.rExit cur]) ++ evs0, ?_⟩
        simp [he]

/-- Count of one event in a one-element conditional trace. -/
lemma countEv_if_singleton (c : Prop) (inst : Decidable c) (x y : LockEv) :
    countEv (if c then [x] else []) y = if c ∧ x = y then 1 else 0 := by
  by_cases h : c <;> by_cases h2 : x = y <;>
    simp [h, h2, countEv_cons]

/-- A list equals itself with a suffix appended only when the suffix is
empty. -/
lemma append_eq_self_iff (l x : List String) : l ++ x = l ↔ x = [] := by
  constructor
  · intro h
    have hl := congrArg List.length h
    simp only [List.length_append] at hl
    exact List.eq_nil_of_length_eq_zero (by omega)
  · rintro rfl
    simp

/-- The common prefix length is bounded by the first list. -/
lemma commonLen_le_left (S : List String) :
    ∀ T : List String, commonLen S T ≤ S.length := by
  induction S with
  | nil => intro T; cases T <;> simp [commonLen]
  | cons a as ih =>
    intro T
    cases T with
    | nil => simp [commonLen]
    | cons b bs =>
      by_cases hab : a = b <;> simp [commonLen, hab]
      exact ih bs

/-- After dropping the common prefix, two lists that both still have
elements left disagree. -/
lemma commonLen_drop_ne (S : List String) :
    ∀ T : List String, S.drop (commonLen S T) ≠ [] →
    T.drop (commonLen S T) ≠ [] →
    S.drop (commonLen S T) ≠ T.drop (commonLen S T) := by
  induction S with
  | nil => intro T hS hT; simp at hS
  | cons a as ih =>
    intro T hS hT
    cases T with
    | nil => simp [commonLen] at hT
    | cons b bs =>
      by_cases hab : a = b
      · subst hab
        have hc : commonLen (a :: as) (a :: bs) = commonLen as bs + 1 := by
          simp [commonLen]
        rw [hc] at hS hT ⊢
        rw [List.drop_succ_cons] at hS hT ⊢
        exact ih bs hS hT
      · simp only [commonLen, if_neg hab, List.drop_zero]
        intro he
        exact hab (List.head_eq_of_cons_eq he)

/-- source_dfs_trace when the descent to the source parent fails. -/
lemma sdt_eq_fail (lca : FsTree) (lcaPath targetPath srcRest : List String)
    (sc : String) (tg : Nat) (err : Int) (evs : List LockEv) (st : FsTree)
    (sp : List String)
    (hmv : move_dfs_trace lca lcaPath srcRest tg true = (err, evs, st, sp))
    (herr : err ≠ 0) :
    source_dfs_trace lca lcaPath targetPath srcRest sc tg =
      (err, evs ++
        (if lcaPath ≠ targetPath then [LockEv.wExit targetPath] else []) ++
        [LockEv.wExit lcaPath]) := by
  simp [source_dfs_trace, hmv, herr]

/-- source_dfs_trace when the descent succeeds but the source child is
missing. -/
lemma sdt_eq_none (lca : FsTree) (lcaPath targetPath srcRest : List String)
    (sc : String) (tg : Nat) (evs : List LockEv) (st : FsTree)
    (sp : List String)
    (hmv : move_dfs_trace lca lcaPath srcRest tg true = (0, evs, st, sp))
    (hget : hmap_get st.children sc = none) :
    source_dfs_trace lca lcaPath targetPath srcRest sc tg =
      (ENOENT, evs ++
        (if sp ≠ lcaPath then [LockEv.wExit sp] else []) ++
        (if targetPath ≠ lcaPath then [LockEv.wExit targetPath] else []) ++
        [LockEv.wExit lcaPath]) := by
  simp [source_dfs_trace, hmv, hget]

/-- source_dfs_trace when the descent succeeds and the source child is
found. -/
lemma sdt_eq_some (lca : FsTree) (lcaPath targetPath srcRest : List String)
    (sc : String) (tg : Nat) (evs : List LockEv) (st : FsTree)
    (sp : List String) (w : FsTree)
    (hmv : move_dfs_trace lca lcaPath srcRest tg true = (0, evs, st, sp))
    (hget : hmap_get st.children sc = some w) :
    source_dfs_trace lca lcaPath targetPath srcRest sc tg =
      (0, evs ++
        (if lcaPath ≠ sp ∧ lcaPath ≠ targetPath then [LockEv.wExit lcaPath]
          else []) ++
        (if sp ≠ targetPath then [LockEv.wExit sp] else []) ++
        [LockEv.wExit targetPath]) := by
  simp [source_dfs_trace, hmv, hget]

/-- Per-node event counts of source_dfs: reader events balance, and the
writer exits are exactly the writer entries of the descent plus one for
the LCA and one for the target parent when distinct from the LCA. -/
lemma sdt_counts (lca : FsTree) (lcaPath targetPath srcRest : List String)
    (sc : String)
    (hsep : srcRest = [] ∨ targetPath = lcaPath ∨
      lcaPath ++ srcRest ≠ targetPath) (q : List String) :
    countEv (source_dfs_trace lca lcaPath targetPath srcRest sc
        srcRest.length).2 (LockEv.rEnter q) =
      countEv (source_dfs_trace lca lcaPath targetPath srcRest sc
        srcRest.length).2 (LockEv.rExit q) ∧
    countEv (source_dfs_trace lca lcaPath targetPath srcRest sc
        srcRest.length).2 (LockEv.wExit q) =
      countEv (source_dfs_trace lca lcaPath targetPath srcRest sc
        srcRest.length).2 (LockEv.wEnter q) +
        (if lcaPath = q then 1 else 0) +
        (if ¬ targetPath = lcaPath ∧ targetPath = q then 1 else 0) := by
  have hmv : move_dfs_trace lca lcaPath srcRest srcRest.length true =
      ((move_dfs_trace lca lcaPath srcRest srcRest.length true).1,
       (move_dfs_trace lca lcaPath srcRest srcRest.length true).2.1,
       (move_dfs_trace lca lcaPath srcRest srcRest.length true).2.2.1,
       (move_dfs_trace lca lcaPath srcRest srcRest.length true).2.2.2) := rfl
  by_cases herr : (move_dfs_trace lca lcaPath srcRest srcRest.length true).1 = 0
  · obtain ⟨e1, e2, e3⟩ :=
      mdt_ok_counts srcRest lca lcaPath true herr q
    have hsp : (move_dfs_trace lca lcaPath srcRest srcRest.length true).2.2.2 =
        lcaPath ++ srcRest :=
      mdt_ok_path srcRest lca lcaPath srcRest.length true herr
    rw [herr, hsp] at hmv
    cases hget : hmap_get
        (move_dfs_trace lca lcaPath srcRest srcRest.length true).2.2.1.children
        sc with
    | none =>
      rw [sdt_eq_none lca lcaPath targetPath srcRest sc srcRest.length
        _ _ _ hmv hget]
      clear hmv hget hsp
      dsimp only
      simp only [Bool.true_eq_false, false_and, if_false, add_zero] at e1
      simp only [countEv_append, countEv_cons, countEv_nil,
        countEv_if_singleton, e1, e2, e3, ne_eq, LockEv.wExit.injEq,
        LockEv.rEnter.injEq, LockEv.rExit.injEq, LockEv.wEnter.injEq,
        append_eq_self_iff, reduceCtorEq, false_and, and_false, if_false,
        add_zero, zero_add]
      constructor
      · trivial
      · split_ifs <;> simp_all <;> omega
    | some w =>
      rw [sdt_eq_some lca lcaPath targetPath srcRest sc srcRest.length
        _ _ _ w hmv hget]
      clear hmv hget hsp
      dsimp only
      simp only [Bool.true_eq_false, false_and, if_false, add_zero] at e1
      simp only [countEv_append, countEv_cons, countEv_nil,
        countEv_if_singleton, e1, e2, e3, ne_eq, LockEv.wExit.injEq,
        LockEv.rEnter.injEq, LockEv.rExit.injEq, LockEv.wEnter.injEq,
        append_eq_self_iff, reduceCtorEq, false_and, and_false, if_false,
        add_zero, zero_add]
      constructor
      · trivial
      · rcases hsep with hsep | hsep | hsep
        · subst hsep
          simp only [List.append_nil] at *
          split_ifs <;> simp_all <;> omega
        · subst hsep
          split_ifs <;> simp_all <;> omega
        · split_ifs <;> simp_all <;> omega
  · obtain ⟨e1, e2, e3⟩ :=
      mdt_fail_counts srcRest lca lcaPath true herr q
    rw [sdt_eq_fail lca lcaPath targetPath srcRest sc srcRest.length
      _ _ _ _ hmv herr]
    clear hmv
    dsimp only
    simp only [Bool.true_eq_false, false_and, if_false, add_zero] at e1
    simp only [countEv_append, countEv_cons, countEv_nil,
      countEv_if_singleton, e1, e2, e3, ne_eq, LockEv.wExit.injEq,
      LockEv.rEnter.injEq, LockEv.rExit.injEq, LockEv.wEnter.injEq,
      reduceCtorEq, false_and, and_false, if_false, add_zero, zero_add]
    constructor
    · trivial
    · by_cases hlt : lcaPath = targetPath
      · subst hlt
        simp
      · have hlt2 : ¬ targetPath = lcaPath := fun he => hlt he.symm
        simp only [hlt, hlt2, not_false_eq_true, true_and]
        omega

/-- target_dfs_trace when the descent to the target parent fails. -/
lemma tdt_eq_fail (lca : FsTree) (lcaPath tgtRest srcRest : List String)
    (tc sc : String) (tgTgt tgSrc : Nat) (err : Int) (evs : List LockEv)
    (tt : FsTree) (tp : List String)
    (hmv : move_dfs_trace lca lcaPath tgtRest tgTgt true = (err, evs, tt, tp))
    (herr : err ≠ 0) :
    target_dfs_trace lca lcaPath tgtRest srcRest tc sc tgTgt tgSrc =
      (err, evs ++ [LockEv.wExit lcaPath]) := by
  simp [target_dfs_trace, hmv, herr]

/-- target_dfs_trace when the target name already exists. -/
lemma tdt_eq_some (lca : FsTree) (lcaPath tgtRest srcRest : List String)
    (tc sc : String) (tgTgt tgSrc : Nat) (evs : List LockEv)
    (tt : FsTree) (tp : List String) (w : FsTree)
    (hmv : move_dfs_trace lca lcaPath tgtRest tgTgt true = (0, evs, tt, tp))
    (hget : hmap_get tt.children tc = some w) :
    target_dfs_trace lca lcaPath tgtRest srcRest tc sc tgTgt tgSrc =
      (EEXIST, evs ++
        (if tp ≠ lcaPath then [LockEv.wExit tp] else []) ++
        [LockEv.wExit lcaPath]) := by
  simp [target_dfs_trace, hmv, hget]

/-- target_dfs_trace when the target name is absent and the source
branch runs. -/
lemma tdt_eq_none (lca : FsTree) (lcaPath tgtRest srcRest : List String)
    (tc sc : String) (tgTgt tgSrc : Nat) (evs : List LockEv)
    (tt : FsTree) (tp : List String)
    (hmv : move_dfs_trace lca lcaPath tgtRest tgTgt true = (0, evs, tt, tp))
    (hget : hmap_get tt.children tc = none) :
    target_dfs_trace lca lcaPath tgtRest srcRest tc sc tgTgt tgSrc =
      ((source_dfs_trace lca lcaPath tp srcRest sc tgSrc).1,
       evs ++ (source_dfs_trace lca lcaPath tp srcRest sc tgSrc).2) := by
  simp [target_dfs_trace, hmv, hget]

/-- Per-node event counts of target_dfs with exact budgets: reader
events balance and writer exits exceed writer entries exactly at the
LCA. -/
lemma tdt_counts (lca : FsTree) (lcaPath tgtRest srcRest : List String)
    (tc sc : String)
    (hsep : srcRest = [] ∨ tgtRest = [] ∨ srcRest ≠ tgtRest)
    (q : List String) :
    countEv (target_dfs_trace lca lcaPath tgtRest srcRest tc sc
        tgtRest.length srcRest.length).2 (LockEv.rEnter q) =
      countEv (target_dfs_trace lca lcaPath tgtRest srcRest tc sc
        tgtRest.length srcRest.length).2 (LockEv.rExit q) ∧
    countEv (target_dfs_trace lca lcaPath tgtRest srcRest tc sc
        tgtRest.length srcRest.length).2 (LockEv.wExit q) =
      countEv (target_dfs_trace lca lcaPath tgtRest srcRest tc sc
        tgtRest.length srcRest.length).2 (LockEv.wEnter q) +
        (if lcaPath = q then 1 else 0) := by
  have hmv : move_dfs_trace lca lcaPath tgtRest tgtRest.length true =
      ((move_dfs_trace lca lcaPath tgtRest tgtRest.length true).1,
       (move_dfs_trace lca lcaPath tgtRest tgtRest.length true).2.1,
       (move_dfs_trace lca lcaPath tgtRest tgtRest.length true).2.2.1,
       (move_dfs_trace lca lcaPath tgtRest tgtRest.length true).2.2.2) := rfl
  by_cases herr : (move_dfs_trace lca lcaPath tgtRest tgtRest.length true).1 = 0
  · obtain ⟨e1, e2, e3⟩ :=
      mdt_ok_counts tgtRest lca lcaPath true herr q
    have hsp : (move_dfs_trace lca lcaPath tgtRest tgtRest.length true).2.2.2 =
        lcaPath ++ tgtRest :=
      mdt_ok_path tgtRest lca lcaPath tgtRest.length true herr
    rw [herr, hsp] at hmv
    cases hget : hmap_get
        (move_dfs_trace lca lcaPath tgtRest tgtRest.length true).2.2.1.children
        tc with
    | some w =>
      rw [tdt_eq_some lca lcaPath tgtRest srcRest tc sc tgtRest.length
        srcRest.length _ _ _ w hmv hget]
      clear hmv hget hsp
      dsimp only
      simp only [Bool.true_eq_false, false_and, if_false, add_zero] at e1
      simp only [countEv_append, countEv_cons, countEv_nil,
        countEv_if_singleton, e1, e2, e3, ne_eq, LockEv.wExit.injEq,
        LockEv.rEnter.injEq, LockEv.rExit.injEq, LockEv.wEnter.injEq,
        append_eq_self_iff, reduceCtorEq, false_and, and_false, if_false,
        add_zero, zero_add]
      constructor
      · trivial
      · trivial
    | none =>
      have hsep2 : srcRest = [] ∨ lcaPath ++ tgtRest = lcaPath ∨
          lcaPath ++ srcRest ≠ lcaPath ++ tgtRest := by
        rcases hsep with hsep | hsep | hsep
        · exact Or.inl hsep
        · subst hsep
          exact Or.inr (Or.inl (by simp))
        · exact Or.inr (Or.inr (fun he => hsep (List.append_cancel_left he)))
      obtain ⟨s1, s2⟩ := sdt_counts lca lcaPath (lcaPath ++ tgtRest) srcRest
        sc hsep2 q
      rw [tdt_eq_none lca lcaPath tgtRest srcRest tc sc tgtRest.length
        srcRest.length _ _ _ hmv hget]
      clear hmv hget hsp
      dsimp only
      simp only [Bool.true_eq_false, false_and, if_false, add_zero] at e1
      simp only [countEv_append, countEv_cons, countEv_nil,
        countEv_if_singleton, e1, e2, e3, s1, s2, ne_eq, LockEv.wExit.injEq,
        LockEv.rEnter.injEq, LockEv.rExit.injEq, LockEv.wEnter.injEq,
        append_eq_self_iff, reduceCtorEq, false_and, and_false, if_false,
        add_zero, zero_add]
      constructor
      · trivial
      · split_ifs <;> omega
  · obtain ⟨e1, e2, e3⟩ :=
      mdt_fail_counts tgtRest lca lcaPath true herr q
    rw [tdt_eq_fail lca lcaPath tgtRest srcRest tc sc tgtRest.length
      srcRest.length _ _ _ _ hmv herr]
    clear hmv
    dsimp only
    simp only [Bool.true_eq_false, false_and, if_false, add_zero] at e1
    simp only [countEv_append, countEv_cons, countEv_nil,
      countEv_if_singleton, e1, e2, e3, ne_eq, LockEv.wExit.injEq,
      LockEv.rEnter.injEq, LockEv.rExit.injEq, LockEv.wEnter.injEq,
      reduceCtorEq, false_and, and_false, if_false, add_zero, zero_add]
    constructor
    · trivial
    · trivial

/-- tree_move_trace when the shared-prefix descent fails. -/
lemma tmt_eq_fail (tr : FsTree) (src tgt : String)
    (scomps tcomps : List String) (s t : String) (err : Int)
    (evs : List LockEv) (st : FsTree) (sp : List String)
    (hps : parse_path src = some scomps) (hpt : parse_path tgt = some tcomps)
    (hsr : ¬ src = "/") (htr : ¬ tgt = "/")
    (hpre : ¬ (src.length < tgt.length ∧
      tgt.data.take src.length = src.data))
    (hgl1 : scomps.getLast? = some s) (hgl2 : tcomps.getLast? = some t)
    (hd : descend_trace tr []
      (scomps.dropLast.take (commonLen scomps.dropLast tcomps.dropLast))
      (commonLen scomps.dropLast tcomps.dropLast) = (err, evs, st, sp))
    (herr : err ≠ 0) :
    tree_move_trace tr src tgt =
      (err, (if commonLen scomps.dropLast tcomps.dropLast = 0 then
        LockEv.wEnter ([] : List String)
        else LockEv.rEnter ([] : List String)) :: evs) := by
  simp [tree_move_trace, hps, hpt, hsr, htr, hpre, hgl1, hgl2, hd, herr]

/-- tree_move_trace when the shared-prefix descent succeeds. -/
lemma tmt_eq_ok (tr : FsTree) (src tgt : String)
    (scomps tcomps : List String) (s t : String)
    (evs : List LockEv) (st : FsTree) (sp : List String)
    (hps : parse_path src = some scomps) (hpt : parse_path tgt = some tcomps)
    (hsr : ¬ src = "/") (htr : ¬ tgt = "/")
    (hpre : ¬ (src.length < tgt.length ∧
      tgt.data.take src.length = src.data))
    (hgl1 : scomps.getLast? = some s) (hgl2 : tcomps.getLast? = some t)
    (hd : descend_trace tr []
      (scomps.dropLast.take (commonLen scomps.dropLast tcomps.dropLast))
      (commonLen scomps.dropLast tcomps.dropLast) = (0, evs, st, sp)) :
    tree_move_trace tr src tgt =
      ((target_dfs_trace st sp
        (tcomps.dropLast.drop (commonLen scomps.dropLast tcomps.dropLast))
        (scomps.dropLast.drop (commonLen scomps.dropLast tcomps.dropLast))
        t s
        (tcomps.dropLast.length - commonLen scomps.dropLast tcomps.dropLast)
        (scomps.dropLast.length -
          commonLen scomps.dropLast tcomps.dropLast)).1,
       (if commonLen scomps.dropLast tcomps.dropLast = 0 then
         LockEv.wEnter ([] : List String)
         else LockEv.rEnter ([] : List String)) ::
       (evs ++ (target_dfs_trace st sp
        (tcomps.dropLast.drop (commonLen scomps.dropLast tcomps.dropLast))
        (scomps.dropLast.drop (commonLen scomps.dropLast tcomps.dropLast))
        t s
        (tcomps.dropLast.length - commonLen scomps.dropLast tcomps.dropLast)
        (scomps.dropLast.length -
          commonLen scomps.dropLast tcomps.dropLast)).2)) := by
  simp [tree_move_trace, hps, hpt, hsr, htr, hpre, hgl1, hgl2, hd]

/-- Every completed tree_move leaves a balanced trace: per node, reader
entries match reader exits and writer entries match writer exits. -/
lemma tmt_balanced (tr : FsTree) (src tgt : String) :
    balancedTrace (tree_move_trace tr src tgt).2 := by
  cases hps : parse_path src with
  | none =>
    have he : tree_move_trace tr src tgt = (EINVAL, []) := by
      simp [tree_move_trace, hps]
    rw [he]
    intro q
    exact ⟨rfl, rfl⟩
  | some scomps =>
  cases hpt : parse_path tgt with
  | none =>
    have he : tree_move_trace tr src tgt = (EINVAL, []) := by
      simp [tree_move_trace, hps, hpt]
    rw [he]
    intro q
    exact ⟨rfl, rfl⟩
  | some tcomps =>
  by_cases hsr : src = "/"
  · subst hsr
    have he : tree_move_trace tr "/" tgt = (EBUSY, []) := by
      simp [tree_move_trace, hps, hpt]
    rw [he]
    intro q
    exact ⟨rfl, rfl⟩
  by_cases htr : tgt = "/"
  · subst htr
    have he : tree_move_trace tr src "/" = (EEXIST, []) := by
      simp [tree_move_trace, hps, hpt, hsr]
    rw [he]
    intro q
    exact ⟨rfl, rfl⟩
  by_cases hpre : src.length < tgt.length ∧
    tgt.data.take src.length = src.data
  · have he : tree_move_trace tr src tgt = (-1, []) := by
      simp [tree_move_trace, hps, hpt, hsr, htr, hpre]
    rw [he]
    intro q
    exact ⟨rfl, rfl⟩
  cases hgl1 : scomps.getLast? with
  | none =>
    have he : tree_move_trace tr src tgt = (EINVAL, []) := by
      simp [tree_move_trace, hps, hpt, hsr, htr, hpre, hgl1]
    rw [he]
    intro q
    exact ⟨rfl, rfl⟩
  | some s =>
  cases hgl2 : tcomps.getLast? with
  | none =>
    have he : tree_move_trace tr src tgt = (EINVAL, []) := by
      simp [tree_move_trace, hps, hpt, hsr, htr, hpre, hgl1, hgl2]
    rw [he]
    intro q
    exact ⟨rfl, rfl⟩
  | some t =>
  have hcl : commonLen scomps.dropLast tcomps.dropLast ≤
      scomps.dropLast.length := commonLen_le_left scomps.dropLast
        tcomps.dropLast
  have hlenTake : (scomps.dropLast.take
      (commonLen scomps.dropLast tcomps.dropLast)).length =
      commonLen scomps.dropLast tcomps.dropLast := by
    rw [List.length_take]
    exact Nat.min_eq_left hcl
  have hbud : descend_trace tr []
      (scomps.dropLast.take (commonLen scomps.dropLast tcomps.dropLast))
      (commonLen scomps.dropLast tcomps.dropLast) =
    move_dfs_trace tr []
      (scomps.dropLast.take (commonLen scomps.dropLast tcomps.dropLast))
      (scomps.dropLast.take
        (commonLen scomps.dropLast tcomps.dropLast)).length false := by
    rw [dt_eq_mdt, hlenTake]
  have hmv : move_dfs_trace tr []
      (scomps.dropLast.take (commonLen scomps.dropLast tcomps.dropLast))
      (scomps.dropLast.take
        (commonLen scomps.dropLast tcomps.dropLast)).length false =
      ((move_dfs_trace tr []
        (scomps.dropLast.take (commonLen scomps.dropLast tcomps.dropLast))
        (scomps.dropLast.take
          (commonLen scomps.dropLast tcomps.dropLast)).length false).1,
       (move_dfs_trace tr []
        (scomps.dropLast.take (commonLen scomps.dropLast tcomps.dropLast))
        (scomps.dropLast.take
          (commonLen scomps.dropLast tcomps.dropLast)).length false).2.1,
       (move_dfs_trace tr []
        (scomps.dropLast.take (commonLen scomps.dropLast tcomps.dropLast))
        (scomps.dropLast.take
          (commonLen scomps.dropLast tcomps.dropLast)).length false).2.2.1,
       (move_dfs_trace tr []
        (scomps.dropLast.take (commonLen scomps.dropLast tcomps.dropLast))
        (scomps.dropLast.take
          (commonLen scomps.dropLast tcomps.dropLast)).length false).2.2.2)
      := rfl
  by_cases herr : (move_dfs_trace tr []
      (scomps.dropLast.take (commonLen scomps.dropLast tcomps.dropLast))
      (scomps.dropLast.take
        (commonLen scomps.dropLast tcomps.dropLast)).length false).1 = 0
  · -- shared descent succeeded
    have hsp : (move_dfs_trace tr []
        (scomps.dropLast.take (commonLen scomps.dropLast tcomps.dropLast))
        (scomps.dropLast.take
          (commonLen scomps.dropLast tcomps.dropLast)).length false).2.2.2 =
        scomps.dropLast.take (commonLen scomps.dropLast tcomps.dropLast) := by
      have := mdt_ok_path
        (scomps.dropLast.take (commonLen scomps.dropLast tcomps.dropLast))
        tr []
        (scomps.dropLast.take
          (commonLen scomps.dropLast tcomps.dropLast)).length false herr
      simpa using this
    rw [herr, hsp] at hmv
    rw [tmt_eq_ok tr src tgt scomps tcomps s t _ _ _ hps hpt hsr htr hpre
      hgl1 hgl2 (hbud.trans hmv)]
    have hsep : scomps.dropLast.drop
        (commonLen scomps.dropLast tcomps.dropLast) = [] ∨
      tcomps.dropLast.drop (commonLen scomps.dropLast tcomps.dropLast) = [] ∨
      scomps.dropLast.drop (commonLen scomps.dropLast tcomps.dropLast) ≠
        tcomps.dropLast.drop (commonLen scomps.dropLast tcomps.dropLast) := by
      by_cases hse : scomps.dropLast.drop
          (commonLen scomps.dropLast tcomps.dropLast) = []
      · exact Or.inl hse
      by_cases hte : tcomps.dropLast.drop
          (commonLen scomps.dropLast tcomps.dropLast) = []
      · exact Or.inr (Or.inl hte)
      exact Or.inr (Or.inr
        (commonLen_drop_ne scomps.dropLast tcomps.dropLast hse hte))
    have hbt : tcomps.dropLast.length -
        commonLen scomps.dropLast tcomps.dropLast =
      (tcomps.dropLast.drop
        (commonLen scomps.dropLast tcomps.dropLast)).length :=
      (List.length_drop _ _).symm
    have hbs : scomps.dropLast.length -
        commonLen scomps.dropLast tcomps.dropLast =
      (scomps.dropLast.drop
        (commonLen scomps.dropLast tcomps.dropLast)).length :=
      (List.length_drop _ _).symm
    rw [hbt, hbs]
    intro q
    obtain ⟨e1, e2, e3⟩ := mdt_ok_counts
      (scomps.dropLast.take (commonLen scomps.dropLast tcomps.dropLast))
      tr [] false herr q
    obtain ⟨t1, t2⟩ := tdt_counts
      (move_dfs_trace tr []
        (scomps.dropLast.take (commonLen scomps.dropLast tcomps.dropLast))
        (scomps.dropLast.take
          (commonLen scomps.dropLast tcomps.dropLast)).length false).2.2.1
      (scomps.dropLast.take (commonLen scomps.dropLast tcomps.dropLast))
      (tcomps.dropLast.drop (commonLen scomps.dropLast tcomps.dropLast))
      (scomps.dropLast.drop (commonLen scomps.dropLast tcomps.dropLast))
      t s hsep q
    clear hmv hbud hsp hsep
    by_cases hc0 : commonLen scomps.dropLast tcomps.dropLast = 0
    · rw [hc0] at e1 e2 e3 t1 t2 ⊢
      simp only [List.take_zero, List.nil_append,
        List.length_nil] at e1 e2 e3 t1 t2 ⊢
      simp only [if_true]
      rw [mdt_nil] at e1 e2 e3 t1 t2 ⊢
      dsimp only at e1 e2 e3 t1 t2 ⊢
      constructor
      · simp only [countEv_cons, countEv_append, countEv_nil,
          reduceCtorEq, if_false, zero_add]
        omega
      · simp only [countEv_cons, countEv_append, countEv_nil,
          LockEv.wEnter.injEq, reduceCtorEq, if_false, zero_add]
        omega
    · have hne : scomps.dropLast.take
          (commonLen scomps.dropLast tcomps.dropLast) ≠ [] := by
        intro he
        rw [he] at hlenTake
        exact hc0 hlenTake.symm
      rw [if_neg hc0]
      simp only [Bool.false_eq_true, false_and, if_false, add_zero,
        eq_self_iff_true, true_and, List.nil_append, ne_eq, hne,
        not_false_eq_true] at e1 e2 e3
      constructor
      · simp only [countEv_cons, countEv_append, reduceCtorEq, if_false,
          zero_add, LockEv.rEnter.injEq]
        rw [e1, t1]
        split_ifs <;> omega
      · simp only [countEv_cons, countEv_append, reduceCtorEq, if_false,
          zero_add]
        rw [e2, e3, t2]
        split_ifs <;> omega
  · -- shared descent failed
    rw [tmt_eq_fail tr src tgt scomps tcomps s t _ _ _ _ hps hpt hsr htr
      hpre hgl1 hgl2 (hbud.trans hmv) herr]
    have hc0 : commonLen scomps.dropLast tcomps.dropLast ≠ 0 := by
      intro he
      rw [he] at herr
      simp only [List.take_zero, List.length_nil] at herr
      rw [mdt_nil] at herr
      exact herr rfl
    rw [if_neg hc0]
    intro q
    obtain ⟨f1, f2, f3⟩ := mdt_fail_counts
      (scomps.dropLast.take (commonLen scomps.dropLast tcomps.dropLast))
      tr [] false herr q
    simp only [Bool.false_eq_true, eq_self_iff_true, true_and] at f1
    constructor
    · simp only [countEv_cons, reduceCtorEq, if_false, zero_add,
        LockEv.rEnter.injEq]
      rw [f1]
      split_ifs <;> omega
    · simp only [countEv_cons, reduceCtorEq, if_false, zero_add]
      rw [f2, f3]

/-- C8 counterexample.  Moving /a/b/ to /c/ in the empty tree hits a
missing component (the branch descents start at the writer-held LCA,
here the root): ENOENT is signalled, yet the trace releases the held
node with the writer exit protocol and contains no reader exit at
all. -/
theorem c8_counterexample :
    tree_move_trace (FsTree.node []) "/a/b/" "/c/" =
      (ENOENT, [LockEv.wEnter [], LockEv.wExit []]) := by decide

/-- C8 (amended).  For find_node with budget equal to the number of
components, a failing descent signals ENOENT, performs no writer entry
or exit on any node, and its last event is the reader exit of the node
held when the missing child was detected.  For move, whose branch
descents start at the writer-held least common ancestor, every
completed trace is balanced per node: reader entries match reader
exits and writer entries match writer exits. -/
theorem c8_missing_component_release (t : FsTree) (comps : List String)
    (tr : FsTree) (src tgt : String)
    (h : (find_node_trace t comps comps.length).1 ≠ 0) :
    (find_node_trace t comps comps.length).1 = ENOENT ∧
    (∀ q : List String,
      countEv (find_node_trace t comps comps.length).2 (LockEv.wEnter q) = 0 ∧
      countEv (find_node_trace t comps comps.length).2 (LockEv.wExit q) = 0) ∧
    (∃ evs0 p, (find_node_trace t comps comps.length).2 =
      evs0 ++ [LockEv.rExit p]) ∧
    balancedTrace (tree_move_trace tr src tgt).2 := by
  have hdt : find_node_trace t comps comps.length =
      ((descend_trace t [] comps comps.length).1,
       (if comps.length = 0 then LockEv.wEnter ([] : List String)
        else LockEv.rEnter ([] : List String)) ::
       (descend_trace t [] comps comps.length).2.1) := rfl
  rw [hdt] at h ⊢
  rw [dt_eq_mdt] at h ⊢
  dsimp only at h ⊢
  have hcomps : comps ≠ [] := by
    intro he
    subst he
    rw [mdt_nil] at h
    exact h rfl
  have hc0 : ¬ comps.length = 0 :=
    fun he => hcomps (List.eq_nil_of_length_eq_zero he)
  rw [if_neg hc0]
  refine ⟨?_, ?_, ?_, tmt_balanced tr src tgt⟩
  · rcases mdt_err comps t [] comps.length false with h0 | h0
    · exact absurd h0 h
    · exact h0
  · intro q
    obtain ⟨f1, f2, f3⟩ := mdt_fail_counts comps t [] false h q
    constructor <;> simp [countEv_cons, f2, f3]
  · obtain ⟨evs0, he⟩ := mdt_fail_last comps t [] comps.length h
    exact ⟨LockEv.rEnter [] :: evs0,
      (move_dfs_trace t [] comps comps.length false).2.2.2, by simp [he]⟩

/-- C8 witness: the amended statement at the empty tree, the one
component path a, and the move of /a/ to /b/. -/
theorem c8_missing_component_release_witness :
    (find_node_trace (FsTree.node []) ["a"]
      (List.length ["a"])).1 = ENOENT ∧
    (∀ q : List String,
      countEv (find_node_trace (FsTree.node []) ["a"]
        (List.length ["a"])).2 (LockEv.wEnter q) = 0 ∧
      countEv (find_node_trace (FsTree.node []) ["a"]
        (List.length ["a"])).2 (LockEv.wExit q) = 0) ∧
    (∃ evs0 p, (find_node_trace (FsTree.node []) ["a"]
      (List.length ["a"])).2 = evs0 ++ [LockEv.rExit p]) ∧
    balancedTrace (tree_move_trace (FsTree.node []) "/a/" "/b/").2 :=
  c8_missing_component_release (FsTree.node []) ["a"] (FsTree.node [])
    "/a/" "/b/" (by decide)

end FsSpec
